import Mathlib

/-!
# Verification of the komusan phonetic candidate engine

A shallow embedding of the candidate generation and scoring engine of the
komusan vocabulary builder (files `scripts/buildutil.py` and
`scripts/buildvoc.py`), together with proofs and refutations of the
behavioural properties stated in its specification.

Conventions used throughout:

* Python strings are embedded as `List Char`; machine integers are `Nat`/`Int`
  (Python integers are unbounded, so no wrap-around modelling is needed);
  Python floats appearing in scores are embedded as `ℚ` (all score arithmetic
  in the engine consists of small exact divisions, sums and products).
* Python regular-expression substitutions are embedded as left-to-right
  non-overlapping scanners.  Each scanner carries an explicit fuel argument
  that is initialised with the length of the scanned string; every step of a
  scanner consumes at least one character of its input, so the fuel is never
  exhausted and the fuelled function agrees with the unfuelled Python
  original on every input.
* Fallible code (the division by zero reachable in `calc_distance`) is
  embedded with an `Option` result, `none` marking the raised exception.
-/

namespace Komusan

/-- Membership of a character in a character class given as a string constant
(embeds Python's `char in classString`). -/
def inClass (s : String) (c : Char) : Bool :=
  s.toList.contains c

/-- ASCII lower-casing of one character (embeds Python's `str.lower` for the
character repertoire used by the engine; the internal alphabet and the
language codes are ASCII apart from `ə`, which has no upper-case variant
in the data). -/
def pyLowerChar (c : Char) : Char :=
  if 'A' ≤ c ∧ c ≤ 'Z' then Char.ofNat (c.toNat + 32) else c

/-- Lower-casing of a word. -/
def pyLower (s : List Char) : List Char :=
  s.map pyLowerChar

/-- Python string comparison `a < b`: lexicographic by code point. -/
def pyStrLt : List Char → List Char → Bool
  | [], [] => false
  | [], _ :: _ => true
  | _ :: _, [] => false
  | x :: xs, y :: ys => if x = y then pyStrLt xs ys else decide (x < y)

/-- Python whitespace test (sufficient for the engine's data: space, tab,
newline, carriage return, form feed, vertical tab). -/
def pyIsSpace (c : Char) : Bool :=
  c = ' ' ∨ c = '\t' ∨ c = '\n' ∨ c = '\r' ∨ c = '\x0b' ∨ c = '\x0c'

/-- Splitting on a character predicate, discarding empty parts: embeds
Python's `str.split()` (and, composed with a punctuation-to-space
substitution, the word splitting of the repair engine). -/
def splitOnPred (p : Char → Bool) (s : List Char) : List (List Char) :=
  go s []
where
  /-- accumulates the current part in reverse -/
  go : List Char → List Char → List (List Char)
    | [], acc => if acc = [] then [] else [acc.reverse]
    | c :: cs, acc =>
      if p c then
        if acc = [] then go cs [] else acc.reverse :: go cs []
      else go cs (c :: acc)

/-- Python's word-character test for `\b` in regular expressions
(alphanumerics plus underscore; extended with the non-ASCII letters that
occur in the engine's data). -/
def isWordChar (c : Char) : Bool :=
  c.isAlphanum ∨ c = '_' ∨ inClass "əáéíóúüýàèêçîôûäöñ" c

/-- The letters of the Latin script occurring in the engine's data
(embeds `unicodedata.name(c).startswith("LATIN")` for alphabetic `c`,
restricted to the character repertoire the scripts process). -/
def is_latin_letter (c : Char) : Bool :=
  ('a' ≤ c ∧ c ≤ 'z') ∨ ('A' ≤ c ∧ c ≤ 'Z') ∨ inClass "əáéíóúüýàèêçîôûäöñßÁÉÍÓÚ" c

/-- `util.has_latin_letter`: does the text contain at least one Latin
letter? -/
def has_latin_letter (text : List Char) : Bool :=
  text.any is_latin_letter

/-! ## Constants of `buildutil.py` (the internal phonology) -/

def INITIAL_NON_SEMIVOWELS : String := "bCdfghjklmnprsStvz"

def SEMIVOWELS : String := "wy"

def INITIAL_CONSONANTS : String := INITIAL_NON_SEMIVOWELS ++ SEMIVOWELS

def ALL_CONSONANTS : String := INITIAL_CONSONANTS ++ "N"

def ALL_NON_SEMIVOWELS : String := INITIAL_NON_SEMIVOWELS ++ "N"

def WORD_FINAL_CONSONANTS : String := "klmnNprst"

def SYLLABLE_FINAL_CONSONANTS : String := WORD_FINAL_CONSONANTS ++ "bdg"

def SECOND_CONSONANTS : String := "lrwy"

def NOT_WORD_FINAL_NON_SEMIVOWEL : String := "CSbdfghjvz"

def NOT_SYLLABLE_FINAL_NON_SEMIVOWEL : String := "CSfhjvz"

def NOT_SECOND_CONSONANTS : String := "bCdfghjkmnpsStvz"

def SIMPLE_VOWELS : String := "aeiou"

def INTERNAL_VOWELS : String := SIMPLE_VOWELS ++ "ə"

/-- Pipe-separated list of falling diphthongs; Python membership tests on it
are substring tests, embedded verbatim below. -/
def FALLING_DIPHTHONGS : String := "ay|aw|ew|oy"

def ILLEGAL_FALLING_DIPHTHONGS : String := "ey|iy|ow|uw"

/-- The punctuation characters collapsed to spaces by `PUNCTUATION_RE`. -/
def PUNCTUATION_CHARS : String := "-,.…;:!?\"/()"

/-- The replacement table converting the internal form to the external
dictionary form (`EXPORT_REPL`, in insertion order). -/
def EXPORT_REPL : List (String × String) :=
  [("sh", "s-h"), ("C", "ch"), ("Ng", "ng"), ("Nk", "nk"),
   ("N", "ng"), ("S", "sh"), ("ə", "e")]

/-- The normalisation replacement table (`NORM_REPL`, in insertion order). -/
def NORM_REPL : List (String × String) :=
  [("v", "u"), ("w", "u"), ("y", "i"), ("z", "s"), ("-", "")]

/-! ## Generic left-to-right replacement

`replaceCountF` embeds Python's `str.replace` (and the counting
substitutions `re.subn` with a literal pattern): leftmost non-overlapping
occurrences of `pat` are replaced by `repl`, scanning resumes after each
replaced occurrence.  The fuel is initialised with the length of the
string; each step consumes at least one character (patterns are nonempty),
so the fuel never runs out. -/

def replaceCountF (pat repl : List Char) : Nat → List Char → List Char × Nat
  | 0, s => (s, 0)
  | fuel + 1, s =>
    match s with
    | [] => ([], 0)
    | c :: cs =>
      if pat ≠ [] ∧ pat.isPrefixOf (c :: cs) then
        let r := replaceCountF pat repl fuel ((c :: cs).drop pat.length)
        (repl ++ r.1, r.2 + 1)
      else
        let r := replaceCountF pat repl fuel cs
        (c :: r.1, r.2)

/-- `s.replace(pat, repl)` (Python semantics). -/
def replaceStr (pat repl s : List Char) : List Char :=
  (replaceCountF pat repl s.length s).1

/-- `re.subn` with a literal pattern: the replaced string and the number of
replacements. -/
def replaceCount (pat repl s : List Char) : List Char × Nat :=
  replaceCountF pat repl s.length s

/-- Python's non-overlapping `str.count` for a pattern (used for
`word.count('X')`, `word.count('SC')` and `word.count('ə')`). -/
def countOcc (pat s : List Char) : Nat :=
  (replaceCountF pat pat s.length s).2

/-- Substring test (Python's `needle in haystack`). -/
def isSubstr (needle : List Char) : List Char → Bool
  | [] => needle.isPrefixOf []
  | c :: cs => needle.isPrefixOf (c :: cs) || isSubstr needle cs

/-! ## A generic scanner for the `re.sub` rewrites

A matcher receives a flag telling whether the scanner stands at the start of
the string (for `^`-anchored alternatives) and the remaining input; it
returns the replacement text and the input remaining after the match, or
`none` when the pattern does not match at this position.  Every matcher
below consumes at least one character on success, so fuel equal to the
length of the input is never exhausted and the fuelled scanner agrees with
Python's `re.sub`/`re.subn` (leftmost, non-overlapping, scanning resumes
after each match). -/

def scanF (m : Bool → List Char → Option (List Char × List Char)) :
    Nat → Bool → List Char → List Char
  | 0, _, s => s
  | fuel + 1, atStart, s =>
    match s with
    | [] => []
    | c :: cs =>
      match m atStart s with
      | some (out, rest) => out ++ scanF m fuel false rest
      | none => c :: scanF m fuel false cs

/-- `re.sub` with a matcher. -/
def scan (m : Bool → List Char → Option (List Char × List Char))
    (s : List Char) : List Char :=
  scanF m s.length true s

/-- Fuelled counting scanner (for `re.subn`). -/
def scanCountF (m : Bool → List Char → Option (List Char × List Char)) :
    Nat → Bool → List Char → List Char × Nat
  | 0, _, s => (s, 0)
  | fuel + 1, atStart, s =>
    match s with
    | [] => ([], 0)
    | c :: cs =>
      match m atStart s with
      | some (out, rest) =>
        let r := scanCountF m fuel false rest
        (out ++ r.1, r.2 + 1)
      | none =>
        let r := scanCountF m fuel false cs
        (c :: r.1, r.2)

/-- `re.subn` with a matcher: result and number of replacements. -/
def scanCount (m : Bool → List Char → Option (List Char × List Char))
    (s : List Char) : List Char × Nat :=
  scanCountF m s.length true s

/-! ## The rewrite rules of `Candidate.insert_filler_vowels`

One matcher (or direct definition) per substitution of the source, in
source order.  Comments quote the regular expression being embedded. -/

/-- `X([INTERNAL_VOWELS])` → `h\1` (also used with the semivowels for
Spanish): the class is a parameter. -/
def xBeforeMatcher (cls : String) : Bool → List Char → Option (List Char × List Char)
  | _, 'X' :: c :: rest =>
    if inClass cls c then some (['h', c], rest) else none
  | _, _ => none

/-- `([ALL_CONSONANTS])\1` → `\1` (`DOUBLE_CONS_RE`). -/
def doubleConsMatcher : Bool → List Char → Option (List Char × List Char)
  | _, a :: b :: rest =>
    if inClass ALL_CONSONANTS a ∧ a = b then some ([a], rest) else none
  | _, _ => none

/-- `ny([INITIAL_CONSONANTS])` → `n\1` (`NY_BEFORE_CONSONANT`). -/
def nyConsMatcher : Bool → List Char → Option (List Char × List Char)
  | _, 'n' :: 'y' :: c :: rest =>
    if inClass INITIAL_CONSONANTS c then some (['n', c], rest) else none
  | _, _ => none

/-- `([ALL_CONSONANTS])y(?=[ALL_CONSONANTS])` → `\1i` (and the analogous
`w` → `u` rule); the semivowel and its vowel are parameters.  The
look-ahead character is not consumed. -/
def semiBetweenConsMatcher (semi vowel : Char) :
    Bool → List Char → Option (List Char × List Char)
  | _, a :: b :: c :: rest =>
    if inClass ALL_CONSONANTS a ∧ b = semi ∧ inClass ALL_CONSONANTS c then
      some ([a, vowel], c :: rest)
    else none
  | _, _ => none

/-- `(iw|uy)(?!([SIMPLE_VOWELS]))` → `iu`/`ui` (`IU_FALLING_DIPHTHONGS_RE`). -/
def iuFallingMatcher : Bool → List Char → Option (List Char × List Char)
  | _, 'i' :: 'w' :: rest =>
    if (rest.head?.map (inClass SIMPLE_VOWELS)).getD false then none
    else some (['i', 'u'], rest)
  | _, 'u' :: 'y' :: rest =>
    if (rest.head?.map (inClass SIMPLE_VOWELS)).getD false then none
    else some (['u', 'i'], rest)
  | _, _ => none

/-- `(ey|iy|ow|uw)(?!([SIMPLE_VOWELS]))` → first vowel
(`ILLEGAL_FALLING_DIPHTHONGS_RE`). -/
def illegalFallingMatcher : Bool → List Char → Option (List Char × List Char)
  | _, a :: b :: rest =>
    if ((a = 'e' ∧ b = 'y') ∨ (a = 'i' ∧ b = 'y') ∨
        (a = 'o' ∧ b = 'w') ∨ (a = 'u' ∧ b = 'w')) ∧
        ¬ (rest.head?.map (inClass SIMPLE_VOWELS)).getD false then
      some ([a], rest)
    else none
  | _, _ => none

/-- `h([ALL_NON_SEMIVOWELS])` → `\1` (`H_BEFORE_CONSONANT`). -/
def hBeforeConsMatcher : Bool → List Char → Option (List Char × List Char)
  | _, 'h' :: c :: rest =>
    if inClass ALL_NON_SEMIVOWELS c then some ([c], rest) else none
  | _, _ => none

/-- The `Ng?[SIMPLE_VOWELS lr]` core of the syllable-initial-`N` rule. -/
def ngCore : List Char → Option (List Char × List Char)
  | 'N' :: 'g' :: d :: rest =>
    if inClass (SIMPLE_VOWELS ++ "lr") d then some (['N', 'g', d], rest) else none
  | 'N' :: d :: rest =>
    if inClass (SIMPLE_VOWELS ++ "lr") d then some (['N', d], rest) else none
  | _ => none

/-- `(^|[SYLLABLE_FINAL_CONSONANTS])(Ng?[SIMPLE_VOWELS lr])` → `\1ə\2`. -/
def ngMatcher : Bool → List Char → Option (List Char × List Char)
  | atStart, s =>
    match (if atStart then ngCore s else none) with
    | some (m, rest) => some ('ə' :: m, rest)
    | none =>
      match s with
      | c :: cs =>
        if inClass SYLLABLE_FINAL_CONSONANTS c then
          match ngCore cs with
          | some (m, rest) => some (c :: 'ə' :: m, rest)
          | none => none
        else none
      | [] => none

/-- `([INTERNAL_VOWELS])SC` → `\1sC` (counting). -/
def vowelScMatcher : Bool → List Char → Option (List Char × List Char)
  | _, v :: 'S' :: 'C' :: rest =>
    if inClass INTERNAL_VOWELS v then some ([v, 's', 'C'], rest) else none
  | _, _ => none

/-- `([SYLLABLE_FINAL_CONSONANTS])(s[kpt].)` → `\1ə\2`
(`ILLEGAL_SKPT_TRIPLE_RE`; the final `.` matches any character). -/
def skptMatcher : Bool → List Char → Option (List Char × List Char)
  | _, a :: 's' :: k :: d :: rest =>
    if inClass SYLLABLE_FINAL_CONSONANTS a ∧ inClass "kpt" k then
      some ([a, 'ə', 's', k, d], rest)
    else none
  | _, _ => none

/-- `Sv([INTERNAL_VOWELS])` → `Sw\1` (German only). -/
def svMatcher : Bool → List Char → Option (List Char × List Char)
  | _, 'S' :: 'v' :: d :: rest =>
    if inClass INTERNAL_VOWELS d then some (['S', 'w', d], rest) else none
  | _, _ => none

/-- `([NOT_SYLLABLE_FINAL_NON_SEMIVOWEL])([NOT_SECOND_CONSONANTS])` →
`\1ə\2` (`ILLEGAL_CONS_PAIR_RE`, applied repeatedly until no match). -/
def illegalPairMatcher : Bool → List Char → Option (List Char × List Char)
  | _, a :: b :: rest =>
    if inClass NOT_SYLLABLE_FINAL_NON_SEMIVOWEL a ∧ inClass NOT_SECOND_CONSONANTS b then
      some ([a, 'ə', b], rest)
    else none
  | _, _ => none

/-- The `while count:` loop around `ILLEGAL_CONS_PAIR_RE.subn`.  A pass that
replaces anything strictly decreases the number of matching adjacent pairs
(the inserted `ə` belongs to neither class), so at most `length` passes can
replace anything and the fuel `length + 1` is never exhausted. -/
def illegalPairLoopF : Nat → List Char → List Char
  | 0, w => w
  | fuel + 1, w =>
    let r := scanCount illegalPairMatcher w
    if r.2 = 0 then r.1 else illegalPairLoopF fuel r.1

def illegalPairLoop (w : List Char) : List Char :=
  illegalPairLoopF (w.length + 1) w

/-- `([rs][mnt])([NOT_SECOND_CONSONANTS])` → `\1ə\2` (`ILLEGAL_RN_TRIPLE_RE`). -/
def rnTripleMatcher : Bool → List Char → Option (List Char × List Char)
  | _, a :: b :: c :: rest =>
    if inClass "rs" a ∧ inClass "mnt" b ∧ inClass NOT_SECOND_CONSONANTS c then
      some ([a, b, 'ə', c], rest)
    else none
  | _, _ => none

/-- `([np])mn` → `\1mən`. -/
def npmnMatcher : Bool → List Char → Option (List Char × List Char)
  | _, a :: 'm' :: 'n' :: rest =>
    if inClass "np" a then some ([a, 'm', 'ə', 'n'], rest) else none
  | _, _ => none

/-- `\b([INITIAL_CONSONANTS])([SYLLABLE_FINAL_CONSONANTS][INITIAL_CONSONANTS])`
→ `\1ə\2` (`INITIAL_CONS_TRIPLE_RE`).  The word boundary is checked against
the original character preceding the current position. -/
def initialTripleF : Nat → Option Char → List Char → List Char
  | 0, _, s => s
  | fuel + 1, prev, s =>
    match s with
    | [] => []
    | c1 :: cs =>
      let boundary := match prev with
        | none => true
        | some p => !(isWordChar p)
      match cs with
      | c2 :: c3 :: rest =>
        if boundary && inClass INITIAL_CONSONANTS c1 &&
            inClass SYLLABLE_FINAL_CONSONANTS c2 && inClass INITIAL_CONSONANTS c3 then
          c1 :: 'ə' :: c2 :: c3 :: initialTripleF fuel (some c3) rest
        else c1 :: initialTripleF fuel (some c1) cs
      | _ => c1 :: initialTripleF fuel (some c1) cs

def initialTriple (w : List Char) : List Char :=
  initialTripleF w.length none w

/-- `([SFC][SFC])([NOT_SECOND_CONSONANTS])` → `\1ə\2`
(`ILLEGAL_CONS_TRIPLE_RE`). -/
def sfcTripleMatcher : Bool → List Char → Option (List Char × List Char)
  | _, a :: b :: c :: rest =>
    if inClass SYLLABLE_FINAL_CONSONANTS a ∧ inClass SYLLABLE_FINAL_CONSONANTS b ∧
        inClass NOT_SECOND_CONSONANTS c then
      some ([a, b, 'ə', c], rest)
    else none
  | _, _ => none

/-- `([INITIAL_NON_SEMIVOWELS][lr])([ALL_NON_SEMIVOWELS])` → `\1ə\2`
(`ILLEGAL_CONS_TRIPLE2_RE`). -/
def insLrTripleMatcher : Bool → List Char → Option (List Char × List Char)
  | _, a :: b :: c :: rest =>
    if inClass INITIAL_NON_SEMIVOWELS a ∧ inClass "lr" b ∧
        inClass ALL_NON_SEMIVOWELS c then
      some ([a, b, 'ə', c], rest)
    else none
  | _, _ => none

/-- The `([INITIAL_NON_SEMIVOWELS][lr])([wy])` core of the third-consonant
semivowel rule. -/
def thirdSemiCore : List Char → Option (List Char × List Char)
  | a :: b :: sv :: rest =>
    if inClass INITIAL_NON_SEMIVOWELS a ∧ inClass "lr" b ∧ inClass SEMIVOWELS sv then
      some ([a, b, if sv = 'w' then 'u' else 'i'], rest)
    else none
  | _ => none

/-- `(^|[SFC])([INITIAL_NON_SEMIVOWELS][lr])([wy])` → `\1\2` + vowel. -/
def thirdSemiMatcher : Bool → List Char → Option (List Char × List Char)
  | atStart, s =>
    match (if atStart then thirdSemiCore s else none) with
    | some r => some r
    | none =>
      match s with
      | c :: cs =>
        if inClass SYLLABLE_FINAL_CONSONANTS c then
          match thirdSemiCore cs with
          | some (m, rest) => some (c :: m, rest)
          | none => none
        else none
      | [] => none

/-- `([INTERNAL_VOWELS SEMIVOWELS][NOT_SYLLABLE_FINAL_NON_SEMIVOWEL][lr])([wy])`
→ `\1` + vowel. -/
def thirdSemiAfterVowelMatcher : Bool → List Char → Option (List Char × List Char)
  | _, v :: a :: b :: sv :: rest =>
    if inClass (INTERNAL_VOWELS ++ SEMIVOWELS) v ∧
        inClass NOT_SYLLABLE_FINAL_NON_SEMIVOWEL a ∧ inClass "lr" b ∧
        inClass SEMIVOWELS sv then
      some ([v, a, b, if sv = 'w' then 'u' else 'i'], rest)
    else none
  | _, _ => none

/-- The `([INITIAL_NON_SEMIVOWELS])(wy|yw)` core of the double-semivowel
rule; the first semivowel becomes a vowel. -/
def doubleSemiCore : List Char → Option (List Char × List Char)
  | a :: 'w' :: 'y' :: rest =>
    if inClass INITIAL_NON_SEMIVOWELS a then some ([a, 'u', 'y'], rest) else none
  | a :: 'y' :: 'w' :: rest =>
    if inClass INITIAL_NON_SEMIVOWELS a then some ([a, 'i', 'w'], rest) else none
  | _ => none

/-- `(^|[SFC])([INITIAL_NON_SEMIVOWELS])(wy|yw)` → `\1\2` + `uy`/`iw`. -/
def doubleSemiMatcher : Bool → List Char → Option (List Char × List Char)
  | atStart, s =>
    match (if atStart then doubleSemiCore s else none) with
    | some r => some r
    | none =>
      match s with
      | c :: cs =>
        if inClass SYLLABLE_FINAL_CONSONANTS c then
          match doubleSemiCore cs with
          | some (m, rest) => some (c :: m, rest)
          | none => none
        else none
      | [] => none

/-- `([INTERNAL_VOWELS SEMIVOWELS][NOT_SYLLABLE_FINAL_NON_SEMIVOWEL])(wy|yw)`
→ `\1` + `uy`/`iw`. -/
def doubleSemiAfterVowelMatcher : Bool → List Char → Option (List Char × List Char)
  | _, v :: a :: s1 :: s2 :: rest =>
    if inClass (INTERNAL_VOWELS ++ SEMIVOWELS) v ∧
        inClass NOT_SYLLABLE_FINAL_NON_SEMIVOWEL a ∧
        ((s1 = 'w' ∧ s2 = 'y') ∨ (s1 = 'y' ∧ s2 = 'w')) then
      some ([v, a] ++ (if s1 = 'w' then ['u', 'y'] else ['i', 'w']), rest)
    else none
  | _, _ => none

/-- `([SYLLABLE_FINAL_CONSONANTS])Nək` → `\1nək`. -/
def nekMatcher : Bool → List Char → Option (List Char × List Char)
  | _, a :: 'N' :: 'ə' :: 'k' :: rest =>
    if inClass SYLLABLE_FINAL_CONSONANTS a then some ([a, 'n', 'ə', 'k'], rest)
    else none
  | _, _ => none

/-- `(?:^|(?<=[SYLLABLE_FINAL_CONSONANTS]))ts` → `s` (`TS_COMBI_RE`,
counting).  The look-behind inspects the original character before the
current position, threaded through the scan as `prev`. -/
def subTsF : Nat → Option Char → List Char → List Char × Nat
  | 0, _, s => (s, 0)
  | fuel + 1, prev, s =>
    match s with
    | [] => ([], 0)
    | 't' :: 's' :: rest =>
      if prev = none ∨ (prev.map (inClass SYLLABLE_FINAL_CONSONANTS)).getD false then
        let r := subTsF fuel (some 's') rest
        ('s' :: r.1, r.2 + 1)
      else
        let r := subTsF fuel (some 't') ('s' :: rest)
        ('t' :: r.1, r.2)
    | c :: cs =>
      let r := subTsF fuel (some c) cs
      (c :: r.1, r.2)

def subTs (w : List Char) : List Char × Nat :=
  subTsF w.length none w

/-- Is the next position a `\b` boundary (given the match so far ends in a
word character)? -/
def boundaryAfter : List Char → Bool
  | [] => true
  | c :: _ => !(isWordChar c)

/-- `re.search(r'(eil|illes?)\b', original)`: does the original word contain
`eil`, `ille` or `illes` followed by a word boundary? -/
def searchEilIlle : List Char → Bool
  | [] => false
  | c :: cs =>
    (['e', 'i', 'l'].isPrefixOf (c :: cs) && boundaryAfter ((c :: cs).drop 3)) ||
    (['i', 'l', 'l', 'e', 's'].isPrefixOf (c :: cs) && boundaryAfter ((c :: cs).drop 5)) ||
    (['i', 'l', 'l', 'e'].isPrefixOf (c :: cs) && boundaryAfter ((c :: cs).drop 4)) ||
    searchEilIlle cs

/-- `([ALL_NON_SEMIVOWELS])N$` → `\1əN` (anchored at the end of the word). -/
def finalAnsN (w : List Char) : List Char :=
  match w.reverse with
  | 'N' :: a :: rest =>
    if inClass ALL_NON_SEMIVOWELS a then ('N' :: 'ə' :: a :: rest).reverse else w
  | _ => w

/-- `([INTERNAL_VOWELS])w(?![INTERNAL_VOWELS])` → `\1u` (`W_RE`; likewise
`Y_RE` with `y`/`i`), used by `export_word`. -/
def semiAfterVowelMatcher (semi vowel : Char) :
    Bool → List Char → Option (List Char × List Char)
  | _, v :: s :: rest =>
    if inClass INTERNAL_VOWELS v ∧ s = semi ∧
        ¬ (rest.head?.map (inClass INTERNAL_VOWELS)).getD false then
      some ([v, vowel], rest)
    else none
  | _, _ => none

/-! ## `buildutil.py` helper functions -/

/-- `export_word`: convert a word from the internal form to the external
form used in the dictionary. -/
def export_word (word : List Char) : List Char :=
  let w := scan (semiAfterVowelMatcher 'w' 'u') word
  let w := scan (semiAfterVowelMatcher 'y' 'i') w
  EXPORT_REPL.foldl (fun acc pr => replaceStr pr.1.toList pr.2.toList acc) w

/-- `normalize_word`: normalize a word to avoid adding minimal pairs to the
dictionary. -/
def normalize_word (word : List Char) : List Char :=
  let w := pyLower word
  let w := w.filter (fun c => !(pyIsSpace c))
  let w := if ['g', 'n'].isPrefixOf w.reverse then w.dropLast else w
  NORM_REPL.foldl (fun acc pr => replaceStr pr.1.toList pr.2.toList acc) w

/-- `count_vowels_internal`: the number of vowels in the internal
representation. -/
def count_vowels_internal (word : List Char) : Nat :=
  ((pyLower word).filter (inClass INTERNAL_VOWELS)).length

/-! ## The `Candidate` data type

The mutable Python dataclass is embedded as an immutable structure; the
mutating methods become functions from `Candidate` to `Candidate`.
`related_cands` maps language codes to lists of related candidates in the
source; only its key set is ever consumed by the components verified here
(via `count_related_natlang_cands`), so it is embedded as the list of its
keys. -/

structure Candidate where
  word : List Char
  penalty : Nat
  lang : String
  original : List Char := []
  true_original : Option String := none
  auxlangs : List String := []
  raw_psim : Int := -1
  simscore : ℚ := -1
  related_cands : List String := []
  filled : Bool := false
deriving DecidableEq, Repr

/-- The distortion score, from 1 (no distortion) to 0 (highly distorted). -/
def Candidate.dscore (c : Candidate) : ℚ :=
  max (1 - (c.penalty : ℚ) / 5) 0

/-- The total score: simscore times dscore. -/
def Candidate.total_score (c : Candidate) : ℚ :=
  c.simscore * c.dscore

/-- The number of syllables (vowel count, minus 0.5 if the word starts and
ends with a vowel). -/
def Candidate.syllables (c : Candidate) : ℚ :=
  let count := count_vowels_internal c.word
  if count ≠ 0 ∧ (c.word.head?.map (inClass INTERNAL_VOWELS)).getD false ∧
      (c.word.getLast?.map (inClass INTERNAL_VOWELS)).getD false then
    (count : ℚ) - 1 / 2
  else (count : ℚ)

/-- The number of natural languages with related candidates (all languages
not listed in `auxlangs` count as natural). -/
def Candidate.count_related_natlang_cands (c : Candidate) : Nat :=
  (c.related_cands.filter (fun l => !(c.auxlangs.contains l))).length

/-- The external form of the word. -/
def Candidate.export_word (c : Candidate) : List Char :=
  Komusan.export_word c.word

/-! ## The syllable repair engine (`Candidate.insert_filler_vowels`)

`process_subword` chains the rewrite steps applied to one whitespace- or
punctuation-separated sub-word, in source order, threading the accumulated
penalty. -/

def process_subword (lang : String) (original : List Char)
    (wp : List Char × Nat) : List Char × Nat :=
  let word := wp.1
  let penalty := wp.2
  -- 'X' (IPA /x/) becomes 'h' before vowels (no penalty) ...
  let word := scan (xBeforeMatcher INTERNAL_VOWELS) word
  -- ... in Spanish also before semivowels ...
  let word := if lang = "es" then scan (xBeforeMatcher SEMIVOWELS) word else word
  -- ... and 'k' otherwise (one penalty point per occurrence)
  let xCount := countOcc ['X'] word
  let word := replaceStr ['X'] ['k'] word
  let penalty := penalty + xCount
  -- simplify tx/tc to c, iy to i, uw to u
  let word := replaceStr ['t', 'x'] ['c'] word
  let word := replaceStr ['t', 'c'] ['c'] word
  let word := replaceStr ['i', 'y'] ['i'] word
  let word := replaceStr ['u', 'w'] ['u'] word
  -- eliminate double consonants
  let word := scan doubleConsMatcher word
  -- 'ny' before a consonant drops the 'y' (except in German)
  let word := if lang ≠ "de" then scan nyConsMatcher word else word
  -- semivowels between consonants become the corresponding vowels
  let word := scan (semiBetweenConsMatcher 'y' 'i') word
  let word := scan (semiBetweenConsMatcher 'w' 'u') word
  -- initial 'ks' → 's' and 'dz' → 'z' (a sound is lost: one penalty point)
  let rKs := if word.take 2 = ['k', 's'] then (('s' :: word.drop 2), 1) else (word, 0)
  let word := rKs.1
  let penalty := penalty + rKs.2
  let rDz := if word.take 2 = ['d', 'z'] then (('z' :: word.drop 2), 1) else (word, 0)
  let word := rDz.1
  let penalty := penalty + rDz.2
  -- 'ts' at the start of words and after syllable-final consonants → 's'
  let rTs := subTs word
  let word := rTs.1
  let penalty := penalty + rTs.2
  -- final 'iy' is simplified to 'i' (without penalty)
  let word := if ['y', 'i'].isPrefixOf word.reverse then word.dropLast else word
  -- 'iw' and 'uy' as falling diphthongs → 'iu'/'ui' (without penalty)
  let word := scan iuFallingMatcher word
  -- final 'ey' in French words ending in -eil or -ille(s) → 'ei'
  let word :=
    if lang = "fr" ∧ word.getLast? = some 'y' ∧ searchEilIlle original ∧
        word.length ≥ 2 ∧
        isSubstr (word.drop (word.length - 2)) ILLEGAL_FALLING_DIPHTHONGS.toList then
      word.dropLast ++ ['i']
    else word
  -- other illegal falling diphthongs → first vowel (one penalty point each)
  let rIf := scanCount illegalFallingMatcher word
  let word := rIf.1
  let penalty := penalty + rIf.2
  -- final 'h' is dropped (with penalty)
  let rFh := if word.getLast? = some 'h' then (word.dropLast, 1) else (word, 0)
  let word := rFh.1
  let penalty := penalty + rFh.2
  -- as is 'h' before another consonant (excluding semivowels)
  let rHc := scanCount hBeforeConsMatcher word
  let word := rHc.1
  let penalty := penalty + rHc.2
  -- final N (ng) needs a vowel before it
  let word := finalAnsN word
  -- simplify nN to N
  let word := replaceStr ['n', 'N'] ['N'] word
  -- add a vowel before syllable-initial N or Ng
  let word := scan ngMatcher word
  -- after a vowel, "SC" → "sC" (with penalty)
  let rVsc := scanCount vowelScMatcher word
  let word := rVsc.1
  let penalty := penalty + rVsc.2
  -- remaining "SC" → "C" (with penalty)
  let scCount := countOcc ['S', 'C'] word
  let word := replaceStr ['S', 'C'] ['C'] word
  let penalty := penalty + scCount
  -- final 'z' after a vowel becomes 's' (with penalty)
  let rFz :=
    match word.reverse with
    | 'z' :: v :: _ =>
      if inClass INTERNAL_VOWELS v then (word.dropLast ++ ['s'], 1) else (word, 0)
    | _ => (word, 0)
  let word := rFz.1
  let penalty := penalty + rFz.2
  -- filler vowels between illegal pairs and triples of consonants
  let word := replaceStr ['r', 'l', 'd'] ['r', 'ə', 'l', 'd'] word
  let word := scan skptMatcher word
  -- German "Sv" (schw) before a vowel becomes "Sw"
  let word := if lang = "de" then scan svMatcher word else word
  -- repeatedly break illegal consonant pairs with a filler vowel
  let word := illegalPairLoop word
  let word := scan rnTripleMatcher word
  let word := scan npmnMatcher word
  let word := replaceStr ['s', 't', 'l'] ['s', 't', 'ə', 'l'] word
  let word := replaceStr ['s', 't', 'v'] ['s', 't', 'ə', 'v'] word
  let word := replaceStr ['s', 'm', 'r'] ['s', 'ə', 'm', 'r'] word
  -- prepend a filler vowel before initial "s" + legal onset pair
  let word :=
    match word with
    | 's' :: b :: c :: rest =>
      if inClass INITIAL_NON_SEMIVOWELS b ∧ inClass SECOND_CONSONANTS c then
        'ə' :: 's' :: b :: c :: rest
      else word
    | _ => word
  let word := initialTriple word
  let word := scan sfcTripleMatcher word
  let word := scan insLrTripleMatcher word
  -- initial 'wh' → 'w'
  let word := if word.take 2 = ['w', 'h'] then 'w' :: word.drop 2 else word
  -- initial semivowel before a consonant not allowed in 2nd position → vowel
  let word :=
    match word with
    | s :: c :: rest =>
      if inClass SEMIVOWELS s ∧ inClass NOT_SECOND_CONSONANTS c then
        (if s = 'w' then 'u' else 'i') :: c :: rest
      else word
    | _ => word
  -- semivowels as third consonant of a syllable → vowel
  let word := scan thirdSemiMatcher word
  let word := scan thirdSemiAfterVowelMatcher word
  -- two adjacent semivowels: the first becomes a vowel
  let word := scan doubleSemiMatcher word
  let word := scan doubleSemiAfterVowelMatcher word
  -- "Nək" after a syllable-final consonant → "nək"
  let word := scan nekMatcher word
  -- a word of just two consonants may get a vowel in between (e.g. "st")
  let word :=
    match word with
    | [a, b] =>
      if inClass INITIAL_NON_SEMIVOWELS a ∧ inClass WORD_FINAL_CONSONANTS b ∧
          ¬ inClass SECOND_CONSONANTS b then
        [a, 'ə', b]
      else word
    | _ => word
  -- prepend a vowel if that makes an initial consonant pair legal
  let word :=
    match word with
    | a :: b :: rest =>
      if inClass SYLLABLE_FINAL_CONSONANTS a ∧ inClass NOT_SECOND_CONSONANTS b then
        'ə' :: a :: b :: rest
      else word
    | _ => word
  -- illegal word endings get a filler vowel appended
  let endCond1 := (word.getLast?.map (inClass NOT_WORD_FINAL_NON_SEMIVOWEL)).getD false
  let endCond2 :=
    decide (word.length > 2) &&
    (match word.reverse with
     | l1 :: l2 :: _ =>
       (inClass INITIAL_CONSONANTS l2 && inClass SECOND_CONSONANTS l1) ||
       (inClass SYLLABLE_FINAL_CONSONANTS l2 && inClass INITIAL_CONSONANTS l1) ||
       (inClass SEMIVOWELS l1 && !(isSubstr [l2, l1] FALLING_DIPHTHONGS.toList))
     | _ => false)
  let word := if endCond1 || endCond2 then word ++ ['ə'] else word
  -- a word with consonants but no vowels gets a final vowel
  let word :=
    if word.any (inClass ALL_CONSONANTS) ∧ ¬ word.any (inClass INTERNAL_VOWELS) then
      word ++ ['ə']
    else word
  -- just 'N' needs a vowel before (rather than after) it
  let word := if word = ['N', 'ə'] then ['ə', 'N'] else word
  -- a spurious 'ə' between 'Ng' is removed
  let word := replaceStr ['N', 'ə', 'g'] ['N', 'g'] word
  -- eliminate double consonants again
  let word := scan doubleConsMatcher word
  -- eliminate the double 'ii' of some Russian words
  let word := if lang = "ru" then replaceStr ['i', 'i'] ['i'] word else word
  -- every filler vowel of the final word costs one penalty point
  let penalty := penalty + countOcc ['ə'] word
  (word, penalty)

/-- The word splitting of the repair engine: punctuation is replaced by
spaces (`PUNCTUATION_RE.sub(' ', ...)`) and the result is split on
whitespace (`str.split()`); the composition splits on maximal runs of
punctuation/whitespace, discarding empty parts. -/
def splitWords (s : List Char) : List (List Char) :=
  splitOnPred (fun c => pyIsSpace c || inClass PUNCTUATION_CHARS c) s

/-- `Candidate.insert_filler_vowels`: insert filler vowels (and apply the
other clean-ups) to make the candidate's phonology valid, increasing the
penalty accordingly.  Runs only once per candidate: a second invocation
finds `filled` set and does nothing. -/
def Candidate.insert_filler_vowels (c : Candidate) : Candidate :=
  if c.filled then c
  else
    let words := splitWords c.word
    let r := words.foldl
      (fun (acc : List (List Char) × Nat) w =>
        let pr := process_subword c.lang c.original (w, acc.2)
        (acc.1 ++ [pr.1], pr.2))
      ([], c.penalty)
    { c with word := List.intercalate [' '] r.1, penalty := r.2, filled := true }

/-! ## The validator (`Candidate.validate`) -/

/-- The first `some` in a list of options (embeds returning the first error
found in a sequence of checks). -/
def firstSome {α : Type} : List (Option α) → Option α :=
  List.foldr (fun o acc => match o with | some x => some x | none => acc) none

/-- `re.split(r'(?:ay|aw|ew|oy|[aeiouə])', word)`: split a word at vowels
and falling diphthongs, keeping the (possibly empty) consonant parts.  The
alternation tries the diphthongs before the single vowels, as the regex
does.  Fuelled; every step consumes one or two characters. -/
def splitVowelsF : Nat → List Char → List Char → List (List Char)
  | 0, acc, s => [acc.reverse ++ s]
  | _ + 1, acc, [] => [acc.reverse]
  | fuel + 1, acc, a :: cs =>
    match cs with
    | b :: rest =>
      if (a = 'a' ∧ b = 'y') ∨ (a = 'a' ∧ b = 'w') ∨
          (a = 'e' ∧ b = 'w') ∨ (a = 'o' ∧ b = 'y') then
        acc.reverse :: splitVowelsF fuel [] rest
      else if inClass INTERNAL_VOWELS a then
        acc.reverse :: splitVowelsF fuel [] cs
      else splitVowelsF fuel (a :: acc) cs
    | [] =>
      if inClass INTERNAL_VOWELS a then
        acc.reverse :: splitVowelsF fuel [] cs
      else splitVowelsF fuel (a :: acc) cs

def splitVowels (w : List Char) : List (List Char) :=
  splitVowelsF w.length [] w

/-- The per-part checks of `Candidate.validate` for one sub-word, walking
the parts with their index. -/
def checkParts (word : List Char) (lastIdx : Nat) :
    Nat → List (List Char) → Option String
  | _, [] => none
  | idx, part :: rest =>
    if part = [] then checkParts word lastIdx (idx + 1) rest
    else if idx = lastIdx ∧
        (part.length > 1 ∨ ¬ isSubstr part WORD_FINAL_CONSONANTS.toList) then
      some ("\"" ++ String.mk part ++ "\" is not allowed at the end of words (" ++
        String.mk word ++ ")")
    else
      let part2 :=
        if idx > 0 ∧ (part.head?.map (inClass SYLLABLE_FINAL_CONSONANTS)).getD false then
          part.tail
        else part
      if part2 = [] then checkParts word lastIdx (idx + 1) rest
      else if part2.length > 2 ∨
          ¬ (part2.head?.map (inClass INITIAL_CONSONANTS)).getD false ∨
          (part2.length = 2 ∧
            ¬ (part2.getLast?.map (inClass SECOND_CONSONANTS)).getD false) then
        some ("\"" ++ String.mk part2 ++ "\" is not allowed at the start of syllables (" ++
          String.mk word ++ ")")
      else checkParts word lastIdx (idx + 1) rest

/-- The validation of one whitespace-separated sub-word. -/
def validateWord (word : List Char) : Option String :=
  let parts := splitVowels word
  checkParts word (parts.length - 1) 0 parts

/-- `Candidate.validate`: check that this candidate is valid, returning an
error message if not (the message text is abbreviated with respect to the
source's formatted diagnostics; only its presence matters). -/
def Candidate.validate (c : Candidate) : Option String :=
  let valid := ALL_CONSONANTS ++ INTERNAL_VOWELS ++ " "
  let unexpected := c.word.filter (fun ch => !(inClass valid ch))
  if unexpected ≠ [] then
    some (c.lang ++ " candidate contains unexpected characters: " ++ String.mk c.word)
  else
    firstSome ((splitOnPred pyIsSpace c.word).map validateWord)

/-! ## The phoneme mapper (`VocBuilder.mk_candidate`)

The conversion tables are loaded from per-language files at run time; they
are embedded as an abstract lookup function together with the maximum key
length (kept separately in the source's `maxkeylengths`).  The
per-language pre- and post-processors (`preprocess_candidate_word`,
`postprocess_candidate`) are pure string transformations whose content none
of the verified properties depends on; they are abstracted as function
parameters.  The memoisation cache (`candi_cache`) only caches the pure
result and is dropped. -/

/-- The result of a phonetic conversion (one conversion-table entry). -/
structure Conversion where
  output : List Char
  penalty : Bool
deriving DecidableEq, Repr

/-- A per-language conversion table: lookup plus maximum key length. -/
structure ConvTable where
  lookup : String → Option Conversion
  maxkeylen : Nat

/-- First index of a character in a word (Python's `str.find`). -/
def findIdxOf (c : Char) : List Char → Option Nat
  | [] => none
  | x :: xs => if x = c then some 0 else (findIdxOf c xs).map (· + 1)

/-- Python's `str.strip()`: discard outer whitespace. -/
def pyStrip (s : List Char) : List Char :=
  ((s.dropWhile pyIsSpace).reverse.dropWhile pyIsSpace).reverse

/-- The comment-stripping step of `mk_candidate`: a trailing parenthetical
comment is removed (when the word ends in `)` and contains a `(`), and the
remainder is stripped of outer whitespace. -/
def strip_comment (word : List Char) : List Char :=
  if word.getLast? = some ')' then
    match findIdxOf '(' word with
    | some idx => pyStrip (word.take idx)
    | none => word
  else word

/-- The longest-prefix probe of the conversion loop: try the prefixes of
`rest` of length `idx, idx - 1, ..., 1` against the table and return the
first hit together with its length. -/
def find_longest_conv (lookup : String → Option Conversion) (rest : List Char) :
    Nat → Option (Conversion × Nat)
  | 0 => none
  | i + 1 =>
    match lookup (String.mk (rest.take (i + 1))) with
    | some conv => some (conv, i + 1)
    | none => find_longest_conv lookup rest i

/-- One iteration of the conversion loop on a (nonempty) remaining input:
the emitted output, the penalty increment, and the remaining input.  On a
total match failure the single leading character is copied verbatim (the
source also logs a diagnostic) and exactly one character is consumed. -/
def convert_step (tbl : ConvTable) (rest : List Char) : List Char × Nat × List Char :=
  match find_longest_conv tbl.lookup rest (min tbl.maxkeylen rest.length) with
  | some (conv, k) => (conv.output, (if conv.penalty then 1 else 0), rest.drop k)
  | none => (rest.take 1, 0, rest.drop 1)

/-- The `while rest_word:` conversion loop.  Fuelled by the input length:
every iteration consumes at least one character (`convert_step_progress`
below), so the fuel is never exhausted. -/
def convert_loopF (tbl : ConvTable) : Nat → List Char → List Char × Nat
  | 0, _ => ([], 0)
  | fuel + 1, rest =>
    match rest with
    | [] => ([], 0)
    | _ :: _ =>
      let st := convert_step tbl rest
      let r := convert_loopF tbl fuel st.2.2
      (st.1 ++ r.1, st.2.1 + r.2)

def convert_loop (tbl : ConvTable) (w : List Char) : List Char × Nat :=
  convert_loopF tbl w.length w

/-- `VocBuilder.mk_candidate`: convert a word (or its phonetic
representation) into a candidate word, or `none` if no candidate can be
derived from it. -/
def mk_candidate (pre : List Char → String → String → List Char)
    (post : List Char → List Char → String → String → List Char)
    (convdicts : String → Option ConvTable) (auxlangs : List String)
    (word : List Char) (langcode conv_dict_name cls : String)
    (true_original : Option String) : Option Candidate :=
  let word := strip_comment word
  if ¬ (word ≠ [] ∧ has_latin_letter word) then none
  else
    let original := word
    match convdicts conv_dict_name with
    | none =>
      -- languages without a conversion dictionary: the lower-cased input
      some { word := pyLower original, penalty := 0, lang := langcode,
             original := original, true_original := true_original,
             auxlangs := auxlangs }
    | some tbl =>
      let word := pre word conv_dict_name cls
      let r := convert_loop tbl word
      let out_word := post r.1 word conv_dict_name cls
      some { word := out_word, penalty := r.2, lang := langcode,
             original := original, true_original := true_original,
             auxlangs := auxlangs }

/-! ## Candidate building (`VocBuilder.build_candidates_for_lang`)

The extraction of the raw candidate words and their true originals from a
dictionary entry (semicolon splitting, square-bracket extraction) precedes
the loop embedded here and is claim-irrelevant; the loop receives the
extracted `(raw word, true original)` pairs. -/

/-- `VocBuilder._schwastrip`: strip a filler vowel from the start and/or
end of a candidate. -/
def schwastripFn (c : Candidate) : Candidate :=
  let w := if c.word.head? = some 'ə' then c.word.tail else c.word
  let w := if w.getLast? = some 'ə' then w.dropLast else w
  { c with word := w }

/-- The candidate-building loop: map each raw word, repair it, validate it,
optionally schwa-strip it, and keep it when it validated and is not a
duplicate (`cand_word_set` is threaded as `seen`). -/
def build_candidates_loop (mk : List Char → Option String → Option Candidate)
    (schwastrip : Bool) :
    List (List Char × Option String) → List (List Char) → List Candidate
  | [], _ => []
  | (raw, torig) :: rest, seen =>
    match mk raw torig with
    | none => build_candidates_loop mk schwastrip rest seen
    | some cand =>
      let cand := cand.insert_filler_vowels
      let val_err := cand.validate
      let cand := if schwastrip then schwastripFn cand else cand
      if val_err = none ∧ ¬ seen.contains cand.word then
        cand :: build_candidates_loop mk schwastrip rest (cand.word :: seen)
      else build_candidates_loop mk schwastrip rest seen

/-- `VocBuilder.build_candidates_for_lang`: build the candidate words for
one specific language. -/
def build_candidates_for_lang (pre : List Char → String → String → List Char)
    (post : List Char → List Char → String → String → List Char)
    (convdicts : String → Option ConvTable) (auxlangs : List String)
    (langcode conv_dict_name cls : String) (schwastrip : Bool)
    (raws : List (List Char × Option String)) : List Candidate :=
  build_candidates_loop
    (fun raw torig =>
      mk_candidate pre post convdicts auxlangs raw langcode conv_dict_name cls torig)
    schwastrip raws []

/-! ## The similarity engine (`VocBuilder.calc_distance`)

`editdistance.eval` computes the standard Levenshtein distance; it is
embedded as the recursive `lev`, fuelled by the total length (every
recursive call removes at least one character).

`calc_distance` itself can raise `ZeroDivisionError` (when the shared
filler stripping reaches two empty words, `max(len(word), len(other_word))`
is zero); the embedding returns `none` exactly in that case.  The float
comparison `edist / max_len <= 0.5` is exact for all representable word
lengths and is embedded as `2 * edist ≤ max_len`. -/

def levF : Nat → List Char → List Char → Nat
  | 0, _, _ => 0
  | _ + 1, [], ys => ys.length
  | _ + 1, x :: xs, [] => (x :: xs).length
  | fuel + 1, x :: xs, y :: ys =>
    if x = y then levF fuel xs ys
    else 1 + min (levF fuel xs ys) (min (levF fuel (x :: xs) ys) (levF fuel xs (y :: ys)))

/-- The Levenshtein edit distance. -/
def lev (a b : List Char) : Nat :=
  levF (a.length + b.length) a b

/-- The consonants of a word for the shared-consonant check, with the velar
nasal `N` identified with `n` (the source's
`set(word.replace('N', 'n')) & ALL_CONSONANTS_SET`; a duplicate-free set is
not needed for the emptiness and intersection tests performed on it). -/
def consOf (w : List Char) : List Char :=
  (w.map (fun c => if c = 'N' then 'n' else c)).filter (inClass ALL_CONSONANTS)

/-- `edist / max(len(word), len(other_word)) <= 0.5` (exact for every
representable length, embedded over `ℕ`). -/
def ratioRel (word other : List Char) : Bool :=
  decide (2 * lev word other ≤ max word.length other.length)

/-- The longer word starts or ends with the shorter one, which has at least
two letters. -/
def affixRel (word other : List Char) : Bool :=
  let shorter := if word.length < other.length then word else other
  let longer := if word.length < other.length then other else word
  decide (2 ≤ shorter.length) &&
    (shorter.isPrefixOf longer || shorter.reverse.isPrefixOf longer.reverse)

/-- The words share a consonant (`N` counting as `n`). -/
def consShare (word other : List Char) : Bool :=
  (consOf word).any (fun c => (consOf other).contains c)

/-- The non-recursive tail of `calc_distance` (reached once no shared
filler vowel is left and the arguments are in alphabetic order): `none`
encodes the `ZeroDivisionError` raised when both words are empty. -/
def calcBase (word other : List Char) : Option (Nat × Bool) :=
  let edist := lev word other
  if max word.length other.length = 0 then none
  else
    let related : Bool := ratioRel word other
    let related : Bool := if related then related else affixRel word other
    let related : Bool :=
      if related then
        if consOf word ≠ [] ∧ consOf other ≠ [] then consShare word other
        else related
      else related
    some (edist, related)

/-- `VocBuilder.calc_distance`, fuelled.  Each shared-filler stripping step
removes two characters and the alphabetic swap is followed immediately by
the base case, so fuel `len + len + 2` is never exhausted
(`calc_distanceF_stable` below). -/
def calc_distanceF : Nat → List Char → List Char → Option (Nat × Bool)
  | 0, _, _ => none
  | fuel + 1, word, other =>
    if word.head? = some 'ə' ∧ other.head? = some 'ə' then
      calc_distanceF fuel word.tail other.tail
    else if word.getLast? = some 'ə' ∧ other.getLast? = some 'ə' then
      calc_distanceF fuel word.dropLast other.dropLast
    else if pyStrLt other word then
      calc_distanceF fuel other word
    else calcBase word other

/-- `VocBuilder.calc_distance`: the edit distance between two candidate
words and whether they count as related; `none` encodes the reachable
`ZeroDivisionError`. -/
def calc_distance (word other : List Char) : Option (Nat × Bool) :=
  calc_distanceF (word.length + other.length + 2) word other

/-! ## Score normalisation (`VocBuilder.store_normalized_sim_penalties`) -/

/-- `max(result, key=lambda cand: cand.raw_psim).raw_psim` for a nonempty
list (the head exists by the guard in the caller). -/
def pyMaxPsim : List Candidate → Int
  | [] => 0
  | c :: cs => cs.foldl (fun m d => max m d.raw_psim) c.raw_psim

/-- `min(result, key=lambda cand: cand.raw_psim).raw_psim`. -/
def pyMinPsim : List Candidate → Int
  | [] => 0
  | c :: cs => cs.foldl (fun m d => min m d.raw_psim) c.raw_psim

/-- The `result` list of `store_normalized_sim_penalties`: the per-language
lists flattened, hiding language-less pseudo-candidates when the `--word`
option is in use. -/
def norm_result (wordOpt : Bool) (candidates : List (List Candidate)) :
    List Candidate :=
  candidates.foldl
    (fun acc g =>
      match g with
      | [] => acc
      | c0 :: _ => if c0.lang ≠ "" ∨ ¬ wordOpt then acc ++ g else acc)
    []

/-- `VocBuilder.store_normalized_sim_penalties`: store the normalized
simscore in each candidate of the batch and return the unified list.
`candidates` holds the per-language candidate lists (the values of the
Python dict, in order); `wordOpt` tells whether the `--word` option was
given (its pseudo-candidates, recognisable by their empty language code,
are then hidden from the returned list). -/
def store_normalized_sim_penalties (wordOpt : Bool)
    (candidates : List (List Candidate)) : List Candidate :=
  let result := norm_result wordOpt candidates
  let maxPsim := if result ≠ [] then pyMaxPsim result else 0
  let minPsim := if result ≠ [] then pyMinPsim result else 0
  let diff := maxPsim - minPsim
  result.map (fun c =>
    if diff ≠ 0 then
      { c with simscore := ((minPsim - c.raw_psim : Int) : ℚ) / ((diff : Int) : ℚ) + 1 }
    else
      -- only one candidate, or all have exactly the same raw penalty
      { c with simscore := 1 })

/-! ## Constraints (`buildutil.Constraints`)

Only the stored fields and the `fails` check are embedded; the parsing of
the semicolon-delimited constraint string populating them is out of the
verified engine's scope. -/

structure Constraints where
  max_syllables : Option ℚ := none
  allowed_langs : Option (List String) := none
  allowed_langs_rationale : Option String := none
  /-- candidate → rationale for skipping it (`None` possible) -/
  skip : List (String × Option String) := []
  added : Option String := none
  adding_rationale : Option String := none
  allowshort : Bool := false
  compound : Option String := none
  compound_rationale : Option String := none
  chosen : Option String := none
  chosen_rationale : Option String := none
  target_class : Option String := none
  merge_with : Option String := none
  premerge : Bool := false

/-- Dictionary lookup in the skip table. -/
def skipLookup (l : List (String × Option String)) (key : String) :
    Option (Option String) :=
  (l.find? (fun p => p.1 = key)).map Prod.snd

/-- `Constraints.fails`: check whether a candidate fails any of the
constraints; returns a descriptive string, or the empty string if not.
Python truthiness is embedded faithfully: an empty `allowed_langs` set and
a missing (`None`) rationale behave like their falsy Python originals. -/
def Constraints.fails (k : Constraints) (cand : Candidate) : String :=
  if (match k.max_syllables with
      | some m => decide (cand.syllables > m)
      | none => false) then "too long"
  else if (match k.allowed_langs with
      | some l => decide (l ≠ []) && decide (cand.lang ≠ "") && !(l.contains cand.lang)
      | none => false) then
    k.allowed_langs_rationale.getD ""
  else
    let cand_word := String.mk cand.export_word
    match skipLookup k.skip cand_word with
    | some rationale => rationale.getD ""
    | none =>
      if (match k.chosen with
          | some w => decide (cand_word ≠ w)
          | none => false) then "not the chosen candidate"
      else ""

/-! ## The ranker (`VocBuilder.print_cands`)

Python's `sorted` with key
`(-count_related_natlang_cands, -total_score, export_word)` is a stable
sort; its result is uniquely determined by the key order and stability, so
it is embedded as a stable insertion sort with the strict key
comparison. -/

/-- Strict comparison of the sort keys
`(-count_related_natlang_cands, -total_score, export_word)`. -/
def key_lt (a b : Candidate) : Bool :=
  let ca := a.count_related_natlang_cands
  let cb := b.count_related_natlang_cands
  if ca ≠ cb then decide (cb < ca)
  else if a.total_score ≠ b.total_score then decide (b.total_score < a.total_score)
  else pyStrLt a.export_word b.export_word

/-- Stable insertion of `x` into a sorted list: `x` goes before the first
element not strictly below it. -/
def insertSorted (x : Candidate) : List Candidate → List Candidate
  | [] => [x]
  | y :: ys => if key_lt y x then y :: insertSorted x ys else x :: y :: ys

/-- Stable sort by `key_lt` (equal to Python's stable `sorted`). -/
def sortCands : List Candidate → List Candidate
  | [] => []
  | x :: xs => insertSorted x (sortCands xs)

/-- The skip decision of the `print_cands` loop, with the reason (the
source shows the reason in the printed prefix; eligibility is its
`none`-ness). -/
def skip_reason (existing : List (List Char)) (allowdup : Bool)
    (min_length : Nat) (constraints : Option Constraints)
    (cand : Candidate) : Option String :=
  let norm_word := normalize_word cand.export_word
  let possible_failure := match constraints with
    | some k => k.fails cand
    | none => ""
  if existing.contains norm_word ∧ ¬ allowdup then some "word exists already"
  else if cand.word.length < min_length then some "too short"
  else if cand.dscore ≤ 6 / 10 then some "too distorted"
  else if possible_failure ≠ "" then some possible_failure
  else none

/-- The numbering loop of `print_cands` over the sorted candidates: each
non-skipped candidate is annotated with the next 1-based number, skipped
candidates with `none` (the printed `[SKIPPED (...)]` prefix).  The
best-total-score star of the source is display-only and elided. -/
def print_cands_loop (existing : List (List Char)) (allowdup : Bool)
    (min_length : Nat) (constraints : Option Constraints) :
    List Candidate → Nat → List (Option Nat × Candidate)
  | [], _ => []
  | c :: cs, num =>
    match skip_reason existing allowdup min_length constraints c with
    | some _ =>
      (none, c) :: print_cands_loop existing allowdup min_length constraints cs num
    | none =>
      (some num, c) ::
        print_cands_loop existing allowdup min_length constraints cs (num + 1)

/-- `VocBuilder.print_cands`: the ordered list of selectable candidates
(those not skipped, in sorted order; the source appends exactly the
candidates receiving a number). -/
def print_cands (existing : List (List Char)) (allowdup : Bool)
    (cand_list : List Candidate) (min_length : Nat)
    (constraints : Option Constraints) : List Candidate :=
  if cand_list = [] then []
  else
    ((print_cands_loop existing allowdup min_length constraints
        (sortCands cand_list) 1).filter
      (fun p => p.1.isSome)).map Prod.snd

/-! ## Specification-side definitions

The following definitions restate, in the specification's own words, the
relatedness criterion (for comparison with `calc_distance`) and the ranking
order (for comparison with `key_lt`).  They are deliberately written from
the spec, not from the source. -/

/-- The shared-filler stripping described by the spec: as long as both
words start (or both end) with the filler vowel, remove it from both.
Fuelled by the total length; each step removes two characters. -/
def stripSharedF : Nat → List Char → List Char → List Char × List Char
  | 0, a, b => (a, b)
  | fuel + 1, a, b =>
    if a.head? = some 'ə' ∧ b.head? = some 'ə' then stripSharedF fuel a.tail b.tail
    else if a.getLast? = some 'ə' ∧ b.getLast? = some 'ə' then
      stripSharedF fuel a.dropLast b.dropLast
    else (a, b)

def stripShared (a b : List Char) : List Char × List Char :=
  stripSharedF (a.length + b.length) a b

/-- The spec's relatedness test on an already-stripped pair of words:
`editDistance / max(len, len) ≤ 0.5`, or the shorter word (with at least
two letters) is a prefix or suffix of the longer one; and when both words
contain at least one consonant, they must share one (`N` counting as
`n`). -/
def baseRelated (x y : List Char) : Bool :=
  (ratioRel x y || affixRel x y) &&
    (if consOf x ≠ [] ∧ consOf y ≠ [] then consShare x y else true)

/-- The relatedness criterion as the specification states it: strip the
shared outer filler vowels, then apply the relatedness test.  (The filler
vowel is not a consonant, so reading the shared-consonant condition on the
stripped or the unstripped words makes no difference.) -/
def related_spec (a b : List Char) : Bool :=
  let p := stripShared a b
  baseRelated p.1 p.2

/-- The ranking order as the specification states it: descending count of
related natural-language candidates, then descending total score, then
ascending alphabetic exported word. -/
def spec_le (a b : Candidate) : Prop :=
  b.count_related_natlang_cands < a.count_related_natlang_cands ∨
  (a.count_related_natlang_cands = b.count_related_natlang_cands ∧
    (b.total_score < a.total_score ∨
      (a.total_score = b.total_score ∧
        (pyStrLt a.export_word b.export_word = true ∨ a.export_word = b.export_word))))

/-- The skip criterion as the claim states it: duplicate of an existing
dictionary word (unless duplicates are allowed), too short in the internal
alphabet, distortion score at most 0.6, or a failure reported by the
`Constraints` object. -/
def spec_skip (existing : List (List Char)) (allowdup : Bool) (min_length : Nat)
    (constraints : Option Constraints) (c : Candidate) : Prop :=
  (normalize_word c.export_word ∈ existing ∧ allowdup = false) ∨
  c.word.length < min_length ∨
  c.dscore ≤ 6 / 10 ∨
  (match constraints with
   | some k => k.fails c ≠ ""
   | none => False)

/-! ## Lemmas about the edit distance -/

theorem levF_stable (n : Nat) : ∀ (f : Nat) (a b : List Char),
    a.length + b.length = n → n ≤ f → levF f a b = levF n a b := by
  induction n using Nat.strong_induction_on with
  | _ n ih =>
    intro f a b hn hf
    cases a with
    | nil =>
      cases b with
      | nil =>
        have h0 : n = 0 := by simpa using hn.symm
        subst h0
        cases f <;> rfl
      | cons y ys =>
        have h1 : 1 ≤ n := by simp at hn; omega
        obtain ⟨f', rfl⟩ : ∃ f', f = f' + 1 := ⟨f - 1, by omega⟩
        obtain ⟨n', rfl⟩ : ∃ n', n = n' + 1 := ⟨n - 1, by omega⟩
        rfl
    | cons x xs =>
      cases b with
      | nil =>
        have h1 : 1 ≤ n := by simp at hn; omega
        obtain ⟨f', rfl⟩ : ∃ f', f = f' + 1 := ⟨f - 1, by omega⟩
        obtain ⟨n', rfl⟩ : ∃ n', n = n' + 1 := ⟨n - 1, by omega⟩
        rfl
      | cons y ys =>
        have h2 : 2 ≤ n := by simp at hn; omega
        obtain ⟨f', rfl⟩ : ∃ f', f = f' + 1 := ⟨f - 1, by omega⟩
        obtain ⟨n', rfl⟩ : ∃ n', n = n' + 1 := ⟨n - 1, by omega⟩
        have hxs : xs.length + ys.length = n' - 1 := by simp at hn; omega
        have hx : (x :: xs).length + ys.length = n' := by simp at hn ⊢; omega
        have hy : xs.length + (y :: ys).length = n' := by simp at hn ⊢; omega
        show levF (f' + 1) (x :: xs) (y :: ys) = levF (n' + 1) (x :: xs) (y :: ys)
        simp only [levF]
        have e1 : levF f' xs ys = levF n' xs ys := by
          rw [ih (n' - 1) (by omega) f' xs ys hxs (by omega),
            ih (n' - 1) (by omega) n' xs ys hxs (by omega)]
        have e2 : levF f' (x :: xs) ys = levF n' (x :: xs) ys := by
          rw [ih n' (by omega) f' (x :: xs) ys hx (by omega)]
        have e3 : levF f' xs (y :: ys) = levF n' xs (y :: ys) := by
          rw [ih n' (by omega) f' xs (y :: ys) hy (by omega)]
        rw [e1, e2, e3]

theorem lev_nil_left (b : List Char) : lev [] b = b.length := by
  cases b <;> rfl

theorem lev_nil_right (a : List Char) : lev a [] = a.length := by
  cases a <;> simp [lev, levF]

theorem lev_cons_cons (x y : Char) (xs ys : List Char) :
    lev (x :: xs) (y :: ys) =
      if x = y then lev xs ys
      else 1 + min (lev xs ys) (min (lev (x :: xs) ys) (lev xs (y :: ys))) := by
  unfold lev
  have h1 : (x :: xs).length + (y :: ys).length = xs.length + ys.length + 1 + 1 := by
    simp; omega
  rw [h1]
  show levF (xs.length + ys.length + 1 + 1) _ _ = _
  simp only [levF]
  rw [levF_stable (xs.length + ys.length) (xs.length + ys.length + 1) xs ys rfl
      (by omega),
    levF_stable ((x :: xs).length + ys.length) (xs.length + ys.length + 1) (x :: xs) ys
      (by simp) (by simp; omega),
    levF_stable (xs.length + (y :: ys).length) (xs.length + ys.length + 1) xs (y :: ys)
      (by simp) (by simp; omega)]

theorem lev_self (a : List Char) : lev a a = 0 := by
  induction a with
  | nil => rfl
  | cons x xs ih => rw [lev_cons_cons]; simp [ih]

theorem lev_comm_aux (n : Nat) : ∀ (a b : List Char),
    a.length + b.length = n → lev a b = lev b a := by
  induction n using Nat.strong_induction_on with
  | _ n ih =>
    intro a b hn
    cases a with
    | nil => rw [lev_nil_left, lev_nil_right]
    | cons x xs =>
      cases b with
      | nil => rw [lev_nil_left, lev_nil_right]
      | cons y ys =>
        rw [lev_cons_cons, lev_cons_cons]
        have e1 : lev xs ys = lev ys xs :=
          ih (xs.length + ys.length) (by simp at hn; omega) xs ys rfl
        have e2 : lev (x :: xs) ys = lev ys (x :: xs) :=
          ih ((x :: xs).length + ys.length) (by simp at hn ⊢; omega) (x :: xs) ys rfl
        have e3 : lev xs (y :: ys) = lev (y :: ys) xs :=
          ih (xs.length + (y :: ys).length) (by simp at hn ⊢; omega) xs (y :: ys) rfl
        by_cases hxy : x = y
        · subst hxy; simp [e1]
        · rw [if_neg hxy, if_neg (Ne.symm hxy), ← e1, ← e2, ← e3]
          omega

theorem lev_comm (a b : List Char) : lev a b = lev b a :=
  lev_comm_aux (a.length + b.length) a b rfl

/-! ## Lemmas about Python string comparison -/

theorem pyStrLt_asymm : ∀ a b : List Char,
    pyStrLt a b = true → pyStrLt b a = false := by
  intro a
  induction a with
  | nil =>
    intro b h
    cases b with
    | nil => simp [pyStrLt] at h
    | cons y ys => rfl
  | cons x xs ih =>
    intro b h
    cases b with
    | nil => simp [pyStrLt] at h
    | cons y ys =>
      by_cases hxy : x = y
      · subst hxy
        simp only [pyStrLt, if_pos rfl] at h ⊢
        exact ih ys h
      · simp only [pyStrLt, if_neg hxy, decide_eq_true_eq] at h
        simp only [pyStrLt, if_neg (Ne.symm hxy), decide_eq_false_iff_not]
        exact lt_asymm h

theorem pyStrLt_antisymm : ∀ a b : List Char,
    pyStrLt a b = false → pyStrLt b a = false → a = b := by
  intro a
  induction a with
  | nil =>
    intro b h _
    cases b with
    | nil => rfl
    | cons y ys => simp [pyStrLt] at h
  | cons x xs ih =>
    intro b h h'
    cases b with
    | nil => simp [pyStrLt] at h'
    | cons y ys =>
      by_cases hxy : x = y
      · subst hxy
        simp only [pyStrLt, if_pos rfl] at h h'
        rw [ih ys h h']
      · simp only [pyStrLt, if_neg hxy, decide_eq_false_iff_not] at h
        simp only [pyStrLt, if_neg (Ne.symm hxy), decide_eq_false_iff_not] at h'
        exact absurd (lt_of_le_of_ne (le_of_not_lt h') hxy) h

/-! ## Unfolding lemmas for `calc_distance` and `stripShared`

The fuelled recursions are stable once the fuel dominates the measure, so
each satisfies the defining equation of the Python recursion. -/

theorem calcF_succ (f : Nat) (a b : List Char) :
    calc_distanceF (f + 1) a b =
      if a.head? = some 'ə' ∧ b.head? = some 'ə' then calc_distanceF f a.tail b.tail
      else if a.getLast? = some 'ə' ∧ b.getLast? = some 'ə' then
        calc_distanceF f a.dropLast b.dropLast
      else if pyStrLt b a then calc_distanceF f b a
      else calcBase a b := rfl

theorem stripF_succ (f : Nat) (a b : List Char) :
    stripSharedF (f + 1) a b =
      if a.head? = some 'ə' ∧ b.head? = some 'ə' then stripSharedF f a.tail b.tail
      else if a.getLast? = some 'ə' ∧ b.getLast? = some 'ə' then
        stripSharedF f a.dropLast b.dropLast
      else (a, b) := rfl

theorem calcF_base (f : Nat) (a b : List Char)
    (h1 : ¬(a.head? = some 'ə' ∧ b.head? = some 'ə'))
    (h2 : ¬(a.getLast? = some 'ə' ∧ b.getLast? = some 'ə'))
    (h3 : pyStrLt b a = false) :
    calc_distanceF (f + 1) a b = calcBase a b := by
  rw [calcF_succ, if_neg h1, if_neg h2, if_neg (by simp [h3])]

theorem calc_distanceF_stable (n : Nat) : ∀ (f : Nat) (a b : List Char),
    a.length + b.length = n → n + 2 ≤ f → calc_distanceF f a b = calc_distance a b := by
  induction n using Nat.strong_induction_on with
  | _ n ih =>
    intro f a b hn hf
    obtain ⟨f', rfl⟩ : ∃ f', f = f' + 1 := ⟨f - 1, by omega⟩
    have hrhs : calc_distance a b = calc_distanceF (n + 1 + 1) a b := by
      unfold calc_distance; rw [hn]
    by_cases hc1 : a.head? = some 'ə' ∧ b.head? = some 'ə'
    · obtain ⟨as, ha⟩ := List.head?_eq_some_iff.mp hc1.1
      obtain ⟨bs, hb⟩ := List.head?_eq_some_iff.mp hc1.2
      have hla : a.length = as.length + 1 := by rw [ha]; rfl
      have hlb : b.length = bs.length + 1 := by rw [hb]; rfl
      have hm : a.tail.length + b.tail.length = n - 2 := by
        rw [List.length_tail, List.length_tail]; omega
      have hn2 : 2 ≤ n := by omega
      rw [calcF_succ, if_pos hc1, hrhs, calcF_succ, if_pos hc1,
        ih (n - 2) (by omega) f' a.tail b.tail hm (by omega),
        ih (n - 2) (by omega) (n + 1) a.tail b.tail hm (by omega)]
    · by_cases hc2 : a.getLast? = some 'ə' ∧ b.getLast? = some 'ə'
      · obtain ⟨as, ha⟩ := List.getLast?_eq_some_iff.mp hc2.1
        obtain ⟨bs, hb⟩ := List.getLast?_eq_some_iff.mp hc2.2
        have hla : a.length = as.length + 1 := by rw [ha]; simp
        have hlb : b.length = bs.length + 1 := by rw [hb]; simp
        have hm : a.dropLast.length + b.dropLast.length = n - 2 := by
          rw [List.length_dropLast, List.length_dropLast]; omega
        have hn2 : 2 ≤ n := by omega
        rw [calcF_succ, if_neg hc1, if_pos hc2, hrhs, calcF_succ, if_neg hc1, if_pos hc2,
          ih (n - 2) (by omega) f' a.dropLast b.dropLast hm (by omega),
          ih (n - 2) (by omega) (n + 1) a.dropLast b.dropLast hm (by omega)]
      · by_cases hc3 : pyStrLt b a = true
        · obtain ⟨f'', rfl⟩ : ∃ f'', f' = f'' + 1 := ⟨f' - 1, by omega⟩
          have h1' : ¬(b.head? = some 'ə' ∧ a.head? = some 'ə') := fun h => hc1 ⟨h.2, h.1⟩
          have h2' : ¬(b.getLast? = some 'ə' ∧ a.getLast? = some 'ə') :=
            fun h => hc2 ⟨h.2, h.1⟩
          have h3' : pyStrLt a b = false := pyStrLt_asymm b a hc3
          rw [calcF_succ, if_neg hc1, if_neg hc2, if_pos (by simp [hc3]),
            calcF_base f'' b a h1' h2' h3', hrhs, calcF_succ, if_neg hc1, if_neg hc2,
            if_pos (by simp [hc3]), calcF_base n b a h1' h2' h3']
        · have hc3' : pyStrLt b a = false := by
            cases h : pyStrLt b a
            · rfl
            · exact absurd h hc3
          rw [calcF_base f' a b hc1 hc2 hc3', hrhs, calcF_base (n + 1) a b hc1 hc2 hc3']

/-- `calc_distance` satisfies the defining recursion of the source. -/
theorem calc_distance_step (a b : List Char) :
    calc_distance a b =
      if a.head? = some 'ə' ∧ b.head? = some 'ə' then calc_distance a.tail b.tail
      else if a.getLast? = some 'ə' ∧ b.getLast? = some 'ə' then
        calc_distance a.dropLast b.dropLast
      else if pyStrLt b a then calc_distance b a
      else calcBase a b := by
  by_cases hc1 : a.head? = some 'ə' ∧ b.head? = some 'ə'
  · obtain ⟨as, ha⟩ := List.head?_eq_some_iff.mp hc1.1
    obtain ⟨bs, hb⟩ := List.head?_eq_some_iff.mp hc1.2
    have hla : a.length = as.length + 1 := by rw [ha]; rfl
    have hlb : b.length = bs.length + 1 := by rw [hb]; rfl
    have hm : a.tail.length + b.tail.length = a.length + b.length - 2 := by
      rw [List.length_tail, List.length_tail]; omega
    have h2 : 2 ≤ a.length + b.length := by omega
    rw [if_pos hc1]
    show calc_distanceF (a.length + b.length + 2) a b = _
    obtain ⟨m, hm'⟩ : ∃ m, a.length + b.length + 2 = m + 1 :=
      ⟨a.length + b.length + 1, rfl⟩
    rw [hm', calcF_succ, if_pos hc1]
    exact calc_distanceF_stable (a.tail.length + b.tail.length) m a.tail b.tail rfl
      (by omega)
  · by_cases hc2 : a.getLast? = some 'ə' ∧ b.getLast? = some 'ə'
    · obtain ⟨as, ha⟩ := List.getLast?_eq_some_iff.mp hc2.1
      obtain ⟨bs, hb⟩ := List.getLast?_eq_some_iff.mp hc2.2
      have hla : a.length = as.length + 1 := by rw [ha]; simp
      have hlb : b.length = bs.length + 1 := by rw [hb]; simp
      have hm : a.dropLast.length + b.dropLast.length = a.length + b.length - 2 := by
        rw [List.length_dropLast, List.length_dropLast]; omega
      rw [if_neg hc1, if_pos hc2]
      show calc_distanceF (a.length + b.length + 2) a b = _
      obtain ⟨m, hm'⟩ : ∃ m, a.length + b.length + 2 = m + 1 :=
        ⟨a.length + b.length + 1, rfl⟩
      rw [hm', calcF_succ, if_neg hc1, if_pos hc2]
      exact calc_distanceF_stable (a.dropLast.length + b.dropLast.length) m
        a.dropLast b.dropLast rfl (by omega)
    · by_cases hc3 : pyStrLt b a = true
      · have h1' : ¬(b.head? = some 'ə' ∧ a.head? = some 'ə') := fun h => hc1 ⟨h.2, h.1⟩
        have h2' : ¬(b.getLast? = some 'ə' ∧ a.getLast? = some 'ə') :=
          fun h => hc2 ⟨h.2, h.1⟩
        have h3' : pyStrLt a b = false := pyStrLt_asymm b a hc3
        rw [if_neg hc1, if_neg hc2, if_pos (by simp [hc3])]
        show calc_distanceF (a.length + b.length + 1 + 1) a b = _
        rw [calcF_succ, if_neg hc1, if_neg hc2, if_pos (by simp [hc3]),
          calcF_base (a.length + b.length) b a h1' h2' h3']
        show _ = calc_distanceF (b.length + a.length + 2) b a
        obtain ⟨m', hm''⟩ : ∃ m', b.length + a.length + 2 = m' + 1 :=
          ⟨b.length + a.length + 1, rfl⟩
        rw [hm'', calcF_base m' b a h1' h2' h3']
      · have hc3' : pyStrLt b a = false := by
          cases h : pyStrLt b a
          · rfl
          · exact absurd h hc3
        rw [if_neg hc1, if_neg hc2, if_neg (by simp [hc3'])]
        show calc_distanceF (a.length + b.length + 1 + 1) a b = _
        rw [calcF_base (a.length + b.length + 1) a b hc1 hc2 hc3']

theorem stripSharedF_stable (n : Nat) : ∀ (f : Nat) (a b : List Char),
    a.length + b.length = n → n ≤ f → stripSharedF f a b = stripShared a b := by
  induction n using Nat.strong_induction_on with
  | _ n ih =>
    intro f a b hn hf
    have hrhs : stripShared a b = stripSharedF n a b := by
      unfold stripShared; rw [hn]
    by_cases hc1 : a.head? = some 'ə' ∧ b.head? = some 'ə'
    · obtain ⟨as, ha⟩ := List.head?_eq_some_iff.mp hc1.1
      obtain ⟨bs, hb⟩ := List.head?_eq_some_iff.mp hc1.2
      have hla : a.length = as.length + 1 := by rw [ha]; rfl
      have hlb : b.length = bs.length + 1 := by rw [hb]; rfl
      have h2 : 2 ≤ n := by omega
      obtain ⟨f', rfl⟩ : ∃ f', f = f' + 1 := ⟨f - 1, by omega⟩
      obtain ⟨n', rfl⟩ : ∃ n', n = n' + 1 := ⟨n - 1, by omega⟩
      have hm : a.tail.length + b.tail.length = n' - 1 := by
        rw [List.length_tail, List.length_tail]; omega
      rw [stripF_succ, if_pos hc1, hrhs, stripF_succ, if_pos hc1,
        ih (n' - 1) (by omega) f' a.tail b.tail hm (by omega),
        ih (n' - 1) (by omega) n' a.tail b.tail hm (by omega)]
    · by_cases hc2 : a.getLast? = some 'ə' ∧ b.getLast? = some 'ə'
      · obtain ⟨as, ha⟩ := List.getLast?_eq_some_iff.mp hc2.1
        obtain ⟨bs, hb⟩ := List.getLast?_eq_some_iff.mp hc2.2
        have hla : a.length = as.length + 1 := by rw [ha]; simp
        have hlb : b.length = bs.length + 1 := by rw [hb]; simp
        have h2 : 2 ≤ n := by omega
        obtain ⟨f', rfl⟩ : ∃ f', f = f' + 1 := ⟨f - 1, by omega⟩
        obtain ⟨n', rfl⟩ : ∃ n', n = n' + 1 := ⟨n - 1, by omega⟩
        have hm : a.dropLast.length + b.dropLast.length = n' - 1 := by
          rw [List.length_dropLast, List.length_dropLast]; omega
        rw [stripF_succ, if_neg hc1, if_pos hc2, hrhs, stripF_succ, if_neg hc1,
          if_pos hc2, ih (n' - 1) (by omega) f' a.dropLast b.dropLast hm (by omega),
          ih (n' - 1) (by omega) n' a.dropLast b.dropLast hm (by omega)]
      · have lhsEq : stripSharedF f a b = (a, b) := by
          cases f with
          | zero => rfl
          | succ f' => rw [stripF_succ, if_neg hc1, if_neg hc2]
        have rhsEq : stripSharedF n a b = (a, b) := by
          cases n with
          | zero => rfl
          | succ n' => rw [stripF_succ, if_neg hc1, if_neg hc2]
        rw [lhsEq, hrhs, rhsEq]

/-- `stripShared` satisfies the defining recursion of the spec's stripping
step. -/
theorem stripShared_step (a b : List Char) :
    stripShared a b =
      if a.head? = some 'ə' ∧ b.head? = some 'ə' then stripShared a.tail b.tail
      else if a.getLast? = some 'ə' ∧ b.getLast? = some 'ə' then
        stripShared a.dropLast b.dropLast
      else (a, b) := by
  by_cases hc1 : a.head? = some 'ə' ∧ b.head? = some 'ə'
  · obtain ⟨as, ha⟩ := List.head?_eq_some_iff.mp hc1.1
    obtain ⟨bs, hb⟩ := List.head?_eq_some_iff.mp hc1.2
    have h2 : 2 ≤ a.length + b.length := by rw [ha, hb]; simp; omega
    rw [if_pos hc1]
    show stripSharedF (a.length + b.length) a b = _
    obtain ⟨m, hm'⟩ : ∃ m, a.length + b.length = m + 1 :=
      ⟨a.length + b.length - 1, by omega⟩
    rw [hm', stripF_succ, if_pos hc1]
    exact stripSharedF_stable (a.tail.length + b.tail.length) m a.tail b.tail rfl
      (by rw [List.length_tail, List.length_tail]; omega)
  · by_cases hc2 : a.getLast? = some 'ə' ∧ b.getLast? = some 'ə'
    · obtain ⟨as, ha⟩ := List.getLast?_eq_some_iff.mp hc2.1
      obtain ⟨bs, hb⟩ := List.getLast?_eq_some_iff.mp hc2.2
      have hla : a.length = as.length + 1 := by rw [ha]; simp
      have hlb : b.length = bs.length + 1 := by rw [hb]; simp
      rw [if_neg hc1, if_pos hc2]
      show stripSharedF (a.length + b.length) a b = _
      obtain ⟨m, hm'⟩ : ∃ m, a.length + b.length = m + 1 :=
        ⟨a.length + b.length - 1, by omega⟩
      rw [hm', stripF_succ, if_neg hc1, if_pos hc2]
      exact stripSharedF_stable (a.dropLast.length + b.dropLast.length) m
        a.dropLast b.dropLast rfl
        (by rw [List.length_dropLast, List.length_dropLast]; omega)
    · rw [if_neg hc1, if_neg hc2]
      show stripSharedF (a.length + b.length) a b = _
      cases hn : a.length + b.length with
      | zero =>
        rfl
      | succ m =>
        rw [stripF_succ, if_neg hc1, if_neg hc2]

/-! ## The base relatedness computation versus the spec's formula -/

/-- The value of the base case, expressed with the spec's formula. -/
theorem calcBase_eq (a b : List Char) :
    calcBase a b =
      if max a.length b.length = 0 then none
      else some (lev a b, baseRelated a b) := by
  by_cases hm : max a.length b.length = 0
  · simp [calcBase, hm]
  · simp only [calcBase, baseRelated, if_neg hm]
    by_cases hbc : consOf a ≠ [] ∧ consOf b ≠ []
    · cases h1 : ratioRel a b <;> cases h2 : affixRel a b <;>
        cases h3 : consShare a b <;> simp [h1, h2, h3, hbc]
    · cases h1 : ratioRel a b <;> cases h2 : affixRel a b <;> simp [h1, h2, hbc]

theorem ratioRel_comm (a b : List Char) : ratioRel a b = ratioRel b a := by
  unfold ratioRel
  rw [lev_comm, Nat.max_comm]

theorem isPrefixOf_comm_of_length {a b : List Char} (h : a.length = b.length) :
    a.isPrefixOf b = b.isPrefixOf a := by
  cases hab : a.isPrefixOf b <;> cases hba : b.isPrefixOf a
  · rfl
  · have := List.IsPrefix.eq_of_length (List.isPrefixOf_iff_prefix.mp hba) h.symm
    subst this
    rw [← hab, hba]
  · have := List.IsPrefix.eq_of_length (List.isPrefixOf_iff_prefix.mp hab) h
    subst this
    rw [← hab, hba]
  · rfl

theorem affixRel_comm (a b : List Char) : affixRel a b = affixRel b a := by
  simp only [affixRel]
  rcases lt_trichotomy a.length b.length with h | h | h
  · rw [if_pos h, if_pos h, if_neg (lt_asymm h), if_neg (lt_asymm h)]
  · rw [if_neg (by omega : ¬ a.length < b.length),
      if_neg (by omega : ¬ a.length < b.length),
      if_neg (by omega : ¬ b.length < a.length),
      if_neg (by omega : ¬ b.length < a.length),
      isPrefixOf_comm_of_length h.symm,
      isPrefixOf_comm_of_length (by simp [h] : b.reverse.length = a.reverse.length), h]
  · rw [if_neg (lt_asymm h), if_neg (lt_asymm h), if_pos h, if_pos h]

theorem consShare_comm (a b : List Char) : consShare a b = consShare b a := by
  unfold consShare
  cases hab : (consOf a).any (fun c => (consOf b).contains c) <;>
    cases hba : (consOf b).any (fun c => (consOf a).contains c)
  · rfl
  · exfalso
    rw [List.any_eq_true] at hba
    obtain ⟨x, hxb, hxa⟩ := hba
    have : (consOf a).any (fun c => (consOf b).contains c) = true := by
      rw [List.any_eq_true]
      exact ⟨x, List.elem_iff.mp hxa, List.elem_iff.mpr hxb⟩
    rw [hab] at this
    exact Bool.false_ne_true this
  · exfalso
    rw [List.any_eq_true] at hab
    obtain ⟨x, hxa, hxb⟩ := hab
    have : (consOf b).any (fun c => (consOf a).contains c) = true := by
      rw [List.any_eq_true]
      exact ⟨x, List.elem_iff.mp hxb, List.elem_iff.mpr hxa⟩
    rw [hba] at this
    exact Bool.false_ne_true this
  · rfl

theorem baseRelated_comm (a b : List Char) : baseRelated a b = baseRelated b a := by
  unfold baseRelated
  rw [ratioRel_comm, affixRel_comm, consShare_comm]
  by_cases hbc : consOf a ≠ [] ∧ consOf b ≠ []
  · rw [if_pos hbc, if_pos ⟨hbc.2, hbc.1⟩]
  · rw [if_neg hbc, if_neg (fun h => hbc ⟨h.2, h.1⟩)]

theorem pyStrLt_irrefl (a : List Char) : pyStrLt a a = false := by
  induction a with
  | nil => rfl
  | cons x xs ih => simp only [pyStrLt, if_pos rfl]; exact ih

/-! ## Helper lemmas for the claims about `calc_distance` -/

theorem related_spec_head {a b : List Char}
    (hc1 : a.head? = some 'ə' ∧ b.head? = some 'ə') :
    related_spec a b = related_spec a.tail b.tail := by
  unfold related_spec
  rw [stripShared_step a b, if_pos hc1]

theorem related_spec_last {a b : List Char}
    (hc1 : ¬(a.head? = some 'ə' ∧ b.head? = some 'ə'))
    (hc2 : a.getLast? = some 'ə' ∧ b.getLast? = some 'ə') :
    related_spec a b = related_spec a.dropLast b.dropLast := by
  unfold related_spec
  rw [stripShared_step a b, if_neg hc1, if_pos hc2]

theorem related_spec_base {a b : List Char}
    (hc1 : ¬(a.head? = some 'ə' ∧ b.head? = some 'ə'))
    (hc2 : ¬(a.getLast? = some 'ə' ∧ b.getLast? = some 'ə')) :
    related_spec a b = baseRelated a b := by
  unfold related_spec
  rw [stripShared_step a b, if_neg hc1, if_neg hc2]

theorem calc_distance_comm_aux (n : Nat) : ∀ a b : List Char,
    a.length + b.length = n → calc_distance a b = calc_distance b a := by
  induction n using Nat.strong_induction_on with
  | _ n ih =>
    intro a b hn
    by_cases hc1 : a.head? = some 'ə' ∧ b.head? = some 'ə'
    · obtain ⟨as, ha⟩ := List.head?_eq_some_iff.mp hc1.1
      obtain ⟨bs, hb⟩ := List.head?_eq_some_iff.mp hc1.2
      have hla : a.length = as.length + 1 := by rw [ha]; rfl
      have hlb : b.length = bs.length + 1 := by rw [hb]; rfl
      have l1 : calc_distance a b = calc_distance a.tail b.tail := by
        rw [calc_distance_step a b, if_pos hc1]
      have l2 : calc_distance b a = calc_distance b.tail a.tail := by
        rw [calc_distance_step b a, if_pos ⟨hc1.2, hc1.1⟩]
      rw [l1, l2]
      exact ih (a.tail.length + b.tail.length)
        (by rw [List.length_tail, List.length_tail]; omega) a.tail b.tail rfl
    · have hc1' : ¬(b.head? = some 'ə' ∧ a.head? = some 'ə') := fun h => hc1 ⟨h.2, h.1⟩
      by_cases hc2 : a.getLast? = some 'ə' ∧ b.getLast? = some 'ə'
      · obtain ⟨as, ha⟩ := List.getLast?_eq_some_iff.mp hc2.1
        obtain ⟨bs, hb⟩ := List.getLast?_eq_some_iff.mp hc2.2
        have hla : a.length = as.length + 1 := by rw [ha]; simp
        have hlb : b.length = bs.length + 1 := by rw [hb]; simp
        have l1 : calc_distance a b = calc_distance a.dropLast b.dropLast := by
          rw [calc_distance_step a b, if_neg hc1, if_pos hc2]
        have l2 : calc_distance b a = calc_distance b.dropLast a.dropLast := by
          rw [calc_distance_step b a, if_neg hc1', if_pos ⟨hc2.2, hc2.1⟩]
        rw [l1, l2]
        exact ih (a.dropLast.length + b.dropLast.length)
          (by rw [List.length_dropLast, List.length_dropLast]; omega)
          a.dropLast b.dropLast rfl
      · have hc2' : ¬(b.getLast? = some 'ə' ∧ a.getLast? = some 'ə') :=
          fun h => hc2 ⟨h.2, h.1⟩
        by_cases hc3 : pyStrLt b a = true
        · have hc3' : pyStrLt a b = false := pyStrLt_asymm b a hc3
          have l1 : calc_distance a b = calc_distance b a := by
            rw [calc_distance_step a b, if_neg hc1, if_neg hc2,
              if_pos (by simp [hc3])]
          exact l1
        · have hc3'' : pyStrLt b a = false := by
            cases h : pyStrLt b a
            · rfl
            · exact absurd h hc3
          by_cases hc4 : pyStrLt a b = true
          · have l2 : calc_distance b a = calc_distance a b := by
              rw [calc_distance_step b a, if_neg hc1', if_neg hc2',
                if_pos (by simp [hc4])]
            exact l2.symm
          · have hc4' : pyStrLt a b = false := by
              cases h : pyStrLt a b
              · rfl
              · exact absurd h hc4
            have hba : b = a := pyStrLt_antisymm b a hc3'' hc4'
            subst hba
            rfl

theorem calc_distance_spec_aux (n : Nat) : ∀ (a b : List Char) (r : Nat × Bool),
    a.length + b.length = n → calc_distance a b = some r →
    r.2 = related_spec a b := by
  induction n using Nat.strong_induction_on with
  | _ n ih =>
    intro a b r hn h
    rw [calc_distance_step a b] at h
    by_cases hc1 : a.head? = some 'ə' ∧ b.head? = some 'ə'
    · obtain ⟨as, ha⟩ := List.head?_eq_some_iff.mp hc1.1
      obtain ⟨bs, hb⟩ := List.head?_eq_some_iff.mp hc1.2
      have hla : a.length = as.length + 1 := by rw [ha]; rfl
      have hlb : b.length = bs.length + 1 := by rw [hb]; rfl
      rw [if_pos hc1] at h
      rw [related_spec_head hc1]
      exact ih (a.tail.length + b.tail.length)
        (by rw [List.length_tail, List.length_tail]; omega) a.tail b.tail r rfl h
    · rw [if_neg hc1] at h
      by_cases hc2 : a.getLast? = some 'ə' ∧ b.getLast? = some 'ə'
      · obtain ⟨as, ha⟩ := List.getLast?_eq_some_iff.mp hc2.1
        obtain ⟨bs, hb⟩ := List.getLast?_eq_some_iff.mp hc2.2
        have hla : a.length = as.length + 1 := by rw [ha]; simp
        have hlb : b.length = bs.length + 1 := by rw [hb]; simp
        rw [if_pos hc2] at h
        rw [related_spec_last hc1 hc2]
        exact ih (a.dropLast.length + b.dropLast.length)
          (by rw [List.length_dropLast, List.length_dropLast]; omega)
          a.dropLast b.dropLast r rfl h
      · rw [if_neg hc2] at h
        rw [related_spec_base hc1 hc2]
        by_cases hc3 : pyStrLt b a = true
        · rw [if_pos (by simp [hc3])] at h
          have hc1' : ¬(b.head? = some 'ə' ∧ a.head? = some 'ə') :=
            fun hh => hc1 ⟨hh.2, hh.1⟩
          have hc2' : ¬(b.getLast? = some 'ə' ∧ a.getLast? = some 'ə') :=
            fun hh => hc2 ⟨hh.2, hh.1⟩
          have hc3' : pyStrLt a b = false := pyStrLt_asymm b a hc3
          rw [calc_distance_step b a, if_neg hc1', if_neg hc2',
            if_neg (by simp [hc3']), calcBase_eq] at h
          by_cases hm : max b.length a.length = 0
          · rw [if_pos hm] at h
            exact absurd h (by simp)
          · rw [if_neg hm] at h
            have hr := (Option.some_inj.mp h).symm
            rw [hr]
            exact (baseRelated_comm b a).symm ▸ rfl
        · rw [if_neg (by simp [hc3]), calcBase_eq] at h
          by_cases hm : max a.length b.length = 0
          · rw [if_pos hm] at h
            exact absurd h (by simp)
          · rw [if_neg hm] at h
            have hr := (Option.some_inj.mp h).symm
            rw [hr]

theorem consShare_self {a : List Char} (h : consOf a ≠ []) :
    consShare a a = true := by
  unfold consShare
  rw [List.any_eq_true]
  match hm : consOf a with
  | [] => exact absurd hm h
  | c :: cs => exact ⟨c, by simp, by simp⟩

theorem baseRelated_self (a : List Char) : baseRelated a a = true := by
  unfold baseRelated
  have h1 : ratioRel a a = true := by
    unfold ratioRel
    rw [lev_self]
    simp
  rw [h1]
  by_cases hc : consOf a ≠ [] ∧ consOf a ≠ []
  · rw [if_pos hc, consShare_self hc.1]
    simp
  · rw [if_neg hc]
    rfl

theorem calc_distance_self_aux (n : Nat) : ∀ a : List Char,
    a.length = n → a ≠ [] → (∃ c ∈ a, c ≠ 'ə') →
    calc_distance a a = some (0, true) := by
  induction n using Nat.strong_induction_on with
  | _ n ih =>
    intro a hn hne hex
    rw [calc_distance_step a a]
    by_cases hh : a.head? = some 'ə'
    · rw [if_pos ⟨hh, hh⟩]
      obtain ⟨as, ha⟩ := List.head?_eq_some_iff.mp hh
      obtain ⟨c, hc, hcne⟩ := hex
      have hcas : c ∈ as := by
        rw [ha] at hc
        cases hc with
        | head => exact absurd rfl hcne
        | tail _ hmem => exact hmem
      have hastail : a.tail = as := by rw [ha]; rfl
      rw [hastail]
      exact ih as.length (by rw [ha] at hn; simp at hn; omega) as rfl
        (by intro hnil; rw [hnil] at hcas; exact absurd hcas (List.not_mem_nil c))
        ⟨c, hcas, hcne⟩
    · by_cases hl : a.getLast? = some 'ə'
      · rw [if_neg (fun hh' => hh hh'.1), if_pos ⟨hl, hl⟩]
        obtain ⟨as, ha⟩ := List.getLast?_eq_some_iff.mp hl
        obtain ⟨c, hc, hcne⟩ := hex
        have hcas : c ∈ as := by
          rw [ha] at hc
          rcases List.mem_append.mp hc with hmem | hmem
          · exact hmem
          · simp at hmem
            exact absurd hmem hcne
        have hadrop : a.dropLast = as := by rw [ha]; exact List.dropLast_concat ..
        rw [hadrop]
        exact ih as.length (by rw [ha] at hn; simp at hn; omega) as rfl
          (by intro hnil; rw [hnil] at hcas; exact absurd hcas (List.not_mem_nil c))
          ⟨c, hcas, hcne⟩
      · rw [if_neg (fun hh' => hh hh'.1), if_neg (fun hl' => hl hl'.1),
          if_neg (by simp [pyStrLt_irrefl]), calcBase_eq,
          if_neg (by
            simp only [Nat.max_self]
            intro hlen
            exact hne (List.length_eq_zero.mp hlen)),
          lev_self, baseRelated_self]

theorem calc_distance_filler_aux (n : Nat) :
    calc_distance (List.replicate n 'ə') (List.replicate n 'ə') = none := by
  induction n with
  | zero => rfl
  | succ m ih =>
    rw [calc_distance_step]
    have hh : (List.replicate (m + 1) 'ə').head? = some 'ə' := by
      rw [List.replicate_succ]
      rfl
    rw [if_pos ⟨hh, hh⟩]
    have ht : (List.replicate (m + 1) 'ə').tail = List.replicate m 'ə' := by
      rw [List.replicate_succ]
      rfl
    rw [ht]
    exact ih

/-! ## Helper lemmas for the score normalisation -/

theorem le_foldl_max (l : List Int) : ∀ i : Int, i ≤ l.foldl max i := by
  induction l with
  | nil => intro i; simp
  | cons x xs ih =>
    intro i
    calc i ≤ max i x := le_max_left i x
    _ ≤ xs.foldl max (max i x) := ih (max i x)

theorem foldl_max_le_of_mem (l : List Int) : ∀ (i x : Int), x ∈ l → x ≤ l.foldl max i := by
  induction l with
  | nil => intro i x hx; exact absurd hx (List.not_mem_nil x)
  | cons y ys ih =>
    intro i x hx
    rcases List.mem_cons.mp hx with heq | hmem
    · subst heq
      calc x ≤ max i x := le_max_right i x
      _ ≤ ys.foldl max (max i x) := le_foldl_max ys (max i x)
    · exact ih (max i y) x hmem

theorem foldl_min_le (l : List Int) : ∀ i : Int, l.foldl min i ≤ i := by
  induction l with
  | nil => intro i; simp
  | cons x xs ih =>
    intro i
    calc xs.foldl min (min i x) ≤ min i x := ih (min i x)
    _ ≤ i := min_le_left i x

theorem foldl_min_le_of_mem (l : List Int) : ∀ (i x : Int), x ∈ l → l.foldl min i ≤ x := by
  induction l with
  | nil => intro i x hx; exact absurd hx (List.not_mem_nil x)
  | cons y ys ih =>
    intro i x hx
    rcases List.mem_cons.mp hx with heq | hmem
    · subst heq
      calc ys.foldl min (min i x) ≤ min i x := foldl_min_le ys (min i x)
      _ ≤ x := min_le_right i x
    · exact ih (min i y) x hmem

theorem foldl_max_const (l : List Int) : ∀ v : Int, (∀ x ∈ l, x = v) → l.foldl max v = v := by
  induction l with
  | nil => intro v _; rfl
  | cons x xs ih =>
    intro v hall
    have hx : x = v := hall x (List.mem_cons_self x xs)
    subst hx
    simp only [List.foldl_cons, max_self]
    exact ih x (fun y hy => hall y (List.mem_cons_of_mem x hy))

theorem foldl_min_const (l : List Int) : ∀ v : Int, (∀ x ∈ l, x = v) → l.foldl min v = v := by
  induction l with
  | nil => intro v _; rfl
  | cons x xs ih =>
    intro v hall
    have hx : x = v := hall x (List.mem_cons_self x xs)
    subst hx
    simp only [List.foldl_cons, min_self]
    exact ih x (fun y hy => hall y (List.mem_cons_of_mem x hy))

theorem pyMaxPsim_eq_foldl (c0 : Candidate) (cs : List Candidate) :
    pyMaxPsim (c0 :: cs) = (cs.map Candidate.raw_psim).foldl max c0.raw_psim := by
  rw [pyMaxPsim, List.foldl_map]

theorem pyMinPsim_eq_foldl (c0 : Candidate) (cs : List Candidate) :
    pyMinPsim (c0 :: cs) = (cs.map Candidate.raw_psim).foldl min c0.raw_psim := by
  rw [pyMinPsim, List.foldl_map]

theorem le_pyMaxPsim_of_mem (l : List Candidate) (c : Candidate) (h : c ∈ l) :
    c.raw_psim ≤ pyMaxPsim l := by
  cases l with
  | nil => exact absurd h (List.not_mem_nil c)
  | cons c0 cs =>
    rw [pyMaxPsim_eq_foldl]
    rcases List.mem_cons.mp h with heq | hmem
    · subst heq
      exact le_foldl_max (cs.map Candidate.raw_psim) c.raw_psim
    · exact foldl_max_le_of_mem (cs.map Candidate.raw_psim) c0.raw_psim c.raw_psim
        (List.mem_map_of_mem Candidate.raw_psim hmem)

theorem pyMinPsim_le_of_mem (l : List Candidate) (c : Candidate) (h : c ∈ l) :
    pyMinPsim l ≤ c.raw_psim := by
  cases l with
  | nil => exact absurd h (List.not_mem_nil c)
  | cons c0 cs =>
    rw [pyMinPsim_eq_foldl]
    rcases List.mem_cons.mp h with heq | hmem
    · subst heq
      exact foldl_min_le (cs.map Candidate.raw_psim) c.raw_psim
    · exact foldl_min_le_of_mem (cs.map Candidate.raw_psim) c0.raw_psim c.raw_psim
        (List.mem_map_of_mem Candidate.raw_psim hmem)

theorem pyMaxPsim_const (l : List Candidate) (v : Int)
    (hne : l ≠ []) (hall : ∀ c ∈ l, c.raw_psim = v) : pyMaxPsim l = v := by
  cases l with
  | nil => exact absurd rfl hne
  | cons c0 cs =>
    rw [pyMaxPsim_eq_foldl, hall c0 (List.mem_cons_self c0 cs)]
    exact foldl_max_const (cs.map Candidate.raw_psim) v
      (fun x hx => by
        obtain ⟨d, hd, hdx⟩ := List.mem_map.mp hx
        rw [← hdx]
        exact hall d (List.mem_cons_of_mem c0 hd))

theorem pyMinPsim_const (l : List Candidate) (v : Int)
    (hne : l ≠ []) (hall : ∀ c ∈ l, c.raw_psim = v) : pyMinPsim l = v := by
  cases l with
  | nil => exact absurd rfl hne
  | cons c0 cs =>
    rw [pyMinPsim_eq_foldl, hall c0 (List.mem_cons_self c0 cs)]
    exact foldl_min_const (cs.map Candidate.raw_psim) v
      (fun x hx => by
        obtain ⟨d, hd, hdx⟩ := List.mem_map.mp hx
        rw [← hdx]
        exact hall d (List.mem_cons_of_mem c0 hd))

/-- `pyMaxPsim` and `pyMinPsim` only inspect `raw_psim`, so they are
unchanged by a map that preserves it. -/
theorem pyMaxPsim_map_eq (l : List Candidate) (f : Candidate → Candidate)
    (hf : ∀ c, (f c).raw_psim = c.raw_psim) :
    pyMaxPsim (l.map f) = pyMaxPsim l := by
  cases l with
  | nil => rfl
  | cons c0 cs =>
    rw [List.map_cons, pyMaxPsim_eq_foldl, pyMaxPsim_eq_foldl, List.map_map]
    have : (Candidate.raw_psim ∘ f) = Candidate.raw_psim := funext hf
    rw [this, hf c0]

theorem pyMinPsim_map_eq (l : List Candidate) (f : Candidate → Candidate)
    (hf : ∀ c, (f c).raw_psim = c.raw_psim) :
    pyMinPsim (l.map f) = pyMinPsim l := by
  cases l with
  | nil => rfl
  | cons c0 cs =>
    rw [List.map_cons, pyMinPsim_eq_foldl, pyMinPsim_eq_foldl, List.map_map]
    have : (Candidate.raw_psim ∘ f) = Candidate.raw_psim := funext hf
    rw [this, hf c0]

/-! ## Helper lemmas for the ranker -/

theorem pyStrLt_trans : ∀ a b c : List Char,
    pyStrLt a b = true → pyStrLt b c = true → pyStrLt a c = true := by
  intro a
  induction a with
  | nil =>
    intro b c hab hbc
    cases b with
    | nil => simp [pyStrLt] at hab
    | cons y ys =>
      cases c with
      | nil => simp [pyStrLt] at hbc
      | cons z zs => rfl
  | cons x xs ih =>
    intro b c hab hbc
    cases b with
    | nil => simp [pyStrLt] at hab
    | cons y ys =>
      cases c with
      | nil => simp [pyStrLt] at hbc
      | cons z zs =>
        by_cases hxy : x = y <;> by_cases hyz : y = z
        · subst hxy; subst hyz
          simp only [pyStrLt, if_pos rfl] at hab hbc ⊢
          exact ih ys zs hab hbc
        · subst hxy
          simp only [pyStrLt, if_neg hyz] at hbc
          simp only [pyStrLt, if_neg hyz]
          exact hbc
        · subst hyz
          simp only [pyStrLt, if_neg hxy] at hab
          simp only [pyStrLt, if_neg hxy]
          exact hab
        · simp only [pyStrLt, if_neg hxy, decide_eq_true_eq] at hab
          simp only [pyStrLt, if_neg hyz, decide_eq_true_eq] at hbc
          by_cases hxz : x = z
          · subst hxz
            exact absurd (lt_trans hab hbc) (lt_irrefl x)
          · simp only [pyStrLt, if_neg hxz, decide_eq_true_eq]
            exact lt_trans hab hbc

theorem pyStrLt_false_iff (a b : List Char) :
    pyStrLt a b = false ↔ (pyStrLt b a = true ∨ a = b) := by
  constructor
  · intro h
    cases hba : pyStrLt b a
    · exact Or.inr (pyStrLt_antisymm a b h hba)
    · exact Or.inl rfl
  · intro h
    rcases h with h | h
    · exact pyStrLt_asymm b a h
    · subst h
      exact pyStrLt_irrefl a

/-- `key_lt b a = false` states exactly the spec's ordering `a ≤ b`. -/
theorem key_lt_false_iff_spec_le (a b : Candidate) :
    key_lt b a = false ↔ spec_le a b := by
  unfold key_lt spec_le
  by_cases hc : b.count_related_natlang_cands ≠ a.count_related_natlang_cands
  · rw [if_pos hc]
    simp only [decide_eq_false_iff_not, not_lt]
    constructor
    · intro h
      exact Or.inl (lt_of_le_of_ne h hc)
    · intro h
      rcases h with h | h
      · exact le_of_lt h
      · exact absurd h.1.symm hc
  · rw [if_neg hc]
    push_neg at hc
    by_cases ht : b.total_score ≠ a.total_score
    · rw [if_pos ht]
      simp only [decide_eq_false_iff_not, not_lt]
      constructor
      · intro h
        exact Or.inr ⟨hc.symm, Or.inl (lt_of_le_of_ne h ht)⟩
      · intro h
        rcases h with h | ⟨_, h⟩
        · exact absurd hc.symm (ne_of_gt h)
        · rcases h with h | h
          · exact le_of_lt h
          · exact absurd h.1.symm ht
    · rw [if_neg ht]
      push_neg at ht
      rw [pyStrLt_false_iff]
      constructor
      · intro h
        rcases h with h | h
        · exact Or.inr ⟨hc.symm, Or.inr ⟨ht.symm, Or.inl h⟩⟩
        · exact Or.inr ⟨hc.symm, Or.inr ⟨ht.symm, Or.inr h.symm⟩⟩
      · intro h
        rcases h with h | ⟨_, h⟩
        · exact absurd hc.symm (ne_of_gt h)
        · rcases h with h | ⟨_, h⟩
          · exact absurd ht.symm (ne_of_gt h)
          · rcases h with h | h
            · exact Or.inl h
            · exact Or.inr h.symm

theorem spec_le_trans {a b c : Candidate} (hab : spec_le a b) (hbc : spec_le b c) :
    spec_le a c := by
  unfold spec_le at hab hbc ⊢
  rcases hab with h1 | ⟨e1, hab'⟩
  · rcases hbc with h2 | ⟨e2, _⟩
    · exact Or.inl (lt_trans h2 h1)
    · exact Or.inl (by rw [← e2]; exact h1)
  · rcases hbc with h2 | ⟨e2, hbc'⟩
    · exact Or.inl (by rw [e1]; exact h2)
    · refine Or.inr ⟨e1.trans e2, ?_⟩
      rcases hab' with h1 | ⟨f1, hab''⟩
      · rcases hbc' with h2 | ⟨f2, _⟩
        · exact Or.inl (lt_trans h2 h1)
        · exact Or.inl (by rw [← f2]; exact h1)
      · rcases hbc' with h2 | ⟨f2, hbc''⟩
        · exact Or.inl (by rw [f1]; exact h2)
        · refine Or.inr ⟨f1.trans f2, ?_⟩
          rcases hab'' with h1 | h1
          · rcases hbc'' with h2 | h2
            · exact Or.inl (pyStrLt_trans _ _ _ h1 h2)
            · exact Or.inl (by rw [← h2]; exact h1)
          · rcases hbc'' with h2 | h2
            · exact Or.inl (by rw [h1]; exact h2)
            · exact Or.inr (h1.trans h2)

theorem key_lt_neg_trans {a b c : Candidate}
    (h1 : key_lt b a = false) (h2 : key_lt c b = false) : key_lt c a = false := by
  rw [key_lt_false_iff_spec_le] at *
  exact spec_le_trans h1 h2

theorem key_lt_asymm {a b : Candidate} (h : key_lt a b = true) :
    key_lt b a = false := by
  unfold key_lt at h ⊢
  by_cases hc : a.count_related_natlang_cands ≠ b.count_related_natlang_cands
  · rw [if_pos hc] at h
    rw [if_pos (Ne.symm hc)]
    simp only [decide_eq_true_eq] at h
    simp only [decide_eq_false_iff_not, not_lt]
    exact le_of_lt h
  · push_neg at hc
    rw [if_neg (by simp [hc])] at h
    rw [if_neg (by simp [hc])]
    by_cases ht : a.total_score ≠ b.total_score
    · rw [if_pos ht] at h
      rw [if_pos (Ne.symm ht)]
      simp only [decide_eq_true_eq] at h
      simp only [decide_eq_false_iff_not, not_lt]
      exact le_of_lt h
    · push_neg at ht
      rw [if_neg (by simp [ht])] at h
      rw [if_neg (by simp [ht])]
      exact pyStrLt_asymm _ _ h

theorem mem_insertSorted (x z : Candidate) : ∀ l : List Candidate,
    z ∈ insertSorted x l ↔ z = x ∨ z ∈ l := by
  intro l
  induction l with
  | nil => simp [insertSorted]
  | cons y ys ih =>
    unfold insertSorted
    by_cases h : key_lt y x = true
    · rw [if_pos h]
      simp only [List.mem_cons, ih]
      tauto
    · rw [if_neg h]
      simp only [List.mem_cons]

theorem pairwise_insertSorted (x : Candidate) : ∀ l : List Candidate,
    l.Pairwise (fun a b => key_lt b a = false) →
    (insertSorted x l).Pairwise (fun a b => key_lt b a = false) := by
  intro l
  induction l with
  | nil => intro _; simp [insertSorted]
  | cons y ys ih =>
    intro hp
    rw [List.pairwise_cons] at hp
    unfold insertSorted
    by_cases h : key_lt y x = true
    · rw [if_pos h]
      rw [List.pairwise_cons]
      constructor
      · intro z hz
        rcases (mem_insertSorted x z ys).mp hz with hzx | hzy
        · subst hzx
          exact key_lt_asymm h
        · exact hp.1 z hzy
      · exact ih hp.2
    · rw [if_neg h]
      have hxy : key_lt y x = false := by
        cases hxy : key_lt y x
        · rfl
        · exact absurd hxy h
      rw [List.pairwise_cons]
      constructor
      · intro z hz
        rcases List.mem_cons.mp hz with hzy | hzys
        · subst hzy
          exact hxy
        · exact key_lt_neg_trans hxy (hp.1 z hzys)
      · rw [List.pairwise_cons]
        exact hp

theorem sortCands_pairwise : ∀ l : List Candidate,
    (sortCands l).Pairwise (fun a b => key_lt b a = false) := by
  intro l
  induction l with
  | nil => simp [sortCands]
  | cons x xs ih => exact pairwise_insertSorted x (sortCands xs) ih

theorem print_loop_filter (e : List (List Char)) (d : Bool) (m : Nat)
    (k : Option Constraints) : ∀ (l : List Candidate) (num : Nat),
    ((print_cands_loop e d m k l num).filter (fun p => p.1.isSome)).map Prod.snd =
      l.filter (fun c => (skip_reason e d m k c).isNone) := by
  intro l
  induction l with
  | nil => intro num; rfl
  | cons c cs ih =>
    intro num
    cases hs : skip_reason e d m k c with
    | none =>
      simp only [print_cands_loop, hs, List.filter_cons]
      simp [ih (num + 1), hs]
    | some msg =>
      simp only [print_cands_loop, hs, List.filter_cons]
      simp [ih num, hs]

theorem print_loop_numbers (e : List (List Char)) (d : Bool) (m : Nat)
    (k : Option Constraints) : ∀ (l : List Candidate) (num : Nat),
    (print_cands_loop e d m k l num).filterMap Prod.fst =
      List.range' num (l.countP (fun c => (skip_reason e d m k c).isNone)) := by
  intro l
  induction l with
  | nil => intro num; rfl
  | cons c cs ih =>
    intro num
    cases hs : skip_reason e d m k c with
    | none =>
      simp only [print_cands_loop, hs, List.countP_cons]
      simp only [Option.isNone_none, if_pos rfl]
      rw [List.filterMap_cons]
      simp only [Prod.fst]
      show num :: (print_cands_loop e d m k cs (num + 1)).filterMap Prod.fst = _
      rw [ih (num + 1)]
      rfl
    | some msg =>
      simp only [print_cands_loop, hs, List.countP_cons]
      rw [List.filterMap_cons]
      simp only [Prod.fst]
      show (print_cands_loop e d m k cs num).filterMap Prod.fst = _
      rw [ih num]
      simp

theorem skip_reason_isSome_iff (e : List (List Char)) (d : Bool) (m : Nat)
    (k : Option Constraints) (c : Candidate) :
    (skip_reason e d m k c).isSome = true ↔ spec_skip e d m k c := by
  simp only [skip_reason, spec_skip]
  have hmem : (e.contains (normalize_word c.export_word) = true) ↔
      normalize_word c.export_word ∈ e := List.elem_iff
  have hdup : (¬ d = true) ↔ d = false := by
    cases d <;> simp
  by_cases h1 : e.contains (normalize_word c.export_word) = true ∧ ¬ d = true
  · rw [if_pos h1]
    simp only [Option.isSome_some, true_iff]
    exact Or.inl ⟨hmem.mp h1.1, hdup.mp h1.2⟩
  · rw [if_neg h1]
    by_cases h2 : c.word.length < m
    · rw [if_pos h2]
      simp only [Option.isSome_some, true_iff]
      exact Or.inr (Or.inl h2)
    · rw [if_neg h2]
      by_cases h3 : c.dscore ≤ 6 / 10
      · rw [if_pos h3]
        simp only [Option.isSome_some, true_iff]
        exact Or.inr (Or.inr (Or.inl h3))
      · rw [if_neg h3]
        by_cases h4 : (match k with | some k' => k'.fails c | none => "") ≠ ""
        · rw [if_pos h4]
          simp only [Option.isSome_some, true_iff]
          refine Or.inr (Or.inr (Or.inr ?_))
          cases k with
          | none => exact absurd rfl h4
          | some k' => exact h4
        · rw [if_neg h4]
          simp only [Option.isSome_none, Bool.false_eq_true, false_iff]
          intro hsp
          rcases hsp with ⟨hm, hd⟩ | hshort | hdist | hfail
          · exact h1 ⟨hmem.mpr hm, hdup.mpr hd⟩
          · exact h2 hshort
          · exact h3 hdist
          · cases k with
            | none => exact hfail
            | some k' => exact h4 hfail

theorem build_candidates_loop_valid
    (mk : List Char → Option String → Option Candidate) :
    ∀ (raws : List (List Char × Option String)) (seen : List (List Char))
      (c : Candidate), c ∈ build_candidates_loop mk false raws seen →
      c.validate = none := by
  intro raws
  induction raws with
  | nil =>
    intro seen c hc
    exact absurd hc (List.not_mem_nil c)
  | cons rt rest ih =>
    intro seen c hc
    obtain ⟨raw, torig⟩ := rt
    unfold build_candidates_loop at hc
    cases hmk : mk raw torig with
    | none =>
      rw [hmk] at hc
      exact ih seen c hc
    | some cand =>
      rw [hmk] at hc
      simp only [if_neg (Bool.false_ne_true)] at hc
      by_cases hcond : (Candidate.insert_filler_vowels cand).validate = none ∧
          ¬ seen.contains (Candidate.insert_filler_vowels cand).word = true
      · rw [if_pos hcond] at hc
        rcases List.mem_cons.mp hc with heq | hmem
        · subst heq
          exact hcond.1
        · exact ih _ c hmem
      · rw [if_neg hcond] at hc
        exact ih seen c hc

theorem find_longest_conv_pos (lookup : String → Option Conversion)
    (rest : List Char) : ∀ (i : Nat) (conv : Conversion) (kk : Nat),
    find_longest_conv lookup rest i = some (conv, kk) → 1 ≤ kk ∧ kk ≤ i := by
  intro i
  induction i with
  | zero =>
    intro conv kk h
    simp [find_longest_conv] at h
  | succ j ih =>
    intro conv kk h
    unfold find_longest_conv at h
    cases hl : lookup (String.mk (rest.take (j + 1))) with
    | some cv =>
      rw [hl] at h
      injection h with h'
      injection h' with h1 h2
      omega
    | none =>
      rw [hl] at h
      have := ih conv kk h
      omega

/-! # The claims -/

/-- C1 (counterexample): the mapper can produce a candidate — here the
pass-through candidate "qqq" of a language without a conversion table —
whose repaired form is rejected by the validator, so repair output is not
always accepted by `validate`. -/
theorem c1_repair_can_fail_validation :
    (mk_candidate (fun w _ _ => w) (fun w _ _ _ => w) (fun _ => none) []
        ("qqq".toList) "xx" "xx" "noun" none).map
      (fun c => (c.insert_filler_vowels.validate).isSome) = some true := by
  decide

/-- C1 (amended): the pipeline guards against such candidates —
`build_candidates_for_lang` (with the schwa-stripping option off, its
default) validates every repaired candidate and discards the failures, so
every candidate it returns satisfies `validate = none`. -/
theorem c1_build_candidates_validator_soundness
    (pre : List Char → String → String → List Char)
    (post : List Char → List Char → String → String → List Char)
    (convdicts : String → Option ConvTable) (auxlangs : List String)
    (langcode conv_dict_name cls : String)
    (raws : List (List Char × Option String)) (c : Candidate)
    (hc : c ∈ build_candidates_for_lang pre post convdicts auxlangs langcode
      conv_dict_name cls false raws) :
    c.validate = none :=
  build_candidates_loop_valid _ raws [] c hc

theorem c1_build_candidates_validator_soundness_witness :
    Candidate.validate
      { word := "abə".toList, penalty := 1, lang := "xx",
        original := "ab".toList, true_original := none, auxlangs := [],
        raw_psim := -1, simscore := -1, related_cands := [], filled := true } =
      none :=
  c1_build_candidates_validator_soundness (fun w _ _ => w) (fun w _ _ _ => w)
    (fun _ => none) [] "xx" "xx" "noun" [("ab".toList, none)] _ (by decide)

/-- C2: repairing a candidate twice yields exactly the same candidate as
repairing it once — the `filled` flag makes the second invocation a no-op,
so in particular `word` and `penalty` are unchanged. -/
theorem c2_insert_filler_vowels_idempotent (c : Candidate) :
    (c.insert_filler_vowels).insert_filler_vowels = c.insert_filler_vowels := by
  by_cases h : c.filled <;>
    simp [Candidate.insert_filler_vowels, h]

/-- C3: after `store_normalized_sim_penalties` runs on a non-empty batch,
a candidate whose raw similarity penalty equals the batch minimum receives
simscore exactly 1; when all raw penalties are equal every candidate
receives 1; otherwise every candidate receives
`(minRaw - thisRaw) / (maxRaw - minRaw) + 1`. -/
theorem c3_simscore_normalization (wordOpt : Bool) (groups : List (List Candidate))
    (hne : store_normalized_sim_penalties wordOpt groups ≠ []) :
    ∀ c ∈ store_normalized_sim_penalties wordOpt groups,
      (c.raw_psim = pyMinPsim (store_normalized_sim_penalties wordOpt groups) →
        c.simscore = 1) ∧
      ((∀ d ∈ store_normalized_sim_penalties wordOpt groups,
          d.raw_psim = pyMinPsim (store_normalized_sim_penalties wordOpt groups)) →
        c.simscore = 1) ∧
      ((¬ ∀ d ∈ store_normalized_sim_penalties wordOpt groups,
          d.raw_psim = pyMinPsim (store_normalized_sim_penalties wordOpt groups)) →
        c.simscore =
          ((pyMinPsim (store_normalized_sim_penalties wordOpt groups) -
              c.raw_psim : Int) : ℚ) /
            ((pyMaxPsim (store_normalized_sim_penalties wordOpt groups) -
              pyMinPsim (store_normalized_sim_penalties wordOpt groups) : Int) : ℚ) +
          1) := by
  intro c hc
  have hL : norm_result wordOpt groups ≠ [] := by
    intro h0
    apply hne
    unfold store_normalized_sim_penalties
    rw [h0]
    rfl
  have hstore : store_normalized_sim_penalties wordOpt groups =
      (norm_result wordOpt groups).map (fun d =>
        if (pyMaxPsim (norm_result wordOpt groups) -
            pyMinPsim (norm_result wordOpt groups)) ≠ 0 then
          { d with simscore :=
              ((pyMinPsim (norm_result wordOpt groups) - d.raw_psim : Int) : ℚ) /
                ((pyMaxPsim (norm_result wordOpt groups) -
                  pyMinPsim (norm_result wordOpt groups) : Int) : ℚ) + 1 }
        else { d with simscore := 1 }) := by
    simp only [store_normalized_sim_penalties]
    rw [if_pos hL, if_pos hL]
  by_cases hdiff : pyMaxPsim (norm_result wordOpt groups) -
      pyMinPsim (norm_result wordOpt groups) = 0
  · have hupd : store_normalized_sim_penalties wordOpt groups =
        (norm_result wordOpt groups).map (fun d => { d with simscore := 1 }) := by
      rw [hstore]
      congr 1
      funext d
      rw [if_neg (not_not_intro hdiff)]
    have hsim : c.simscore = 1 := by
      rw [hupd] at hc
      obtain ⟨d, _, hdc⟩ := List.mem_map.mp hc
      rw [← hdc]
    refine ⟨fun _ => hsim, fun _ => hsim, fun hprem => ?_⟩
    exfalso
    apply hprem
    intro d hd
    have hmapeq : pyMinPsim (store_normalized_sim_penalties wordOpt groups) =
        pyMinPsim (norm_result wordOpt groups) := by
      rw [hupd]
      exact pyMinPsim_map_eq _ _ (fun _ => rfl)
    rw [hmapeq]
    rw [hupd] at hd
    obtain ⟨d', hd', hdd⟩ := List.mem_map.mp hd
    have hlo := pyMinPsim_le_of_mem _ d' hd'
    have hhi := le_pyMaxPsim_of_mem _ d' hd'
    rw [← hdd]
    show d'.raw_psim = pyMinPsim (norm_result wordOpt groups)
    omega
  · have hform : store_normalized_sim_penalties wordOpt groups =
        (norm_result wordOpt groups).map (fun d =>
          { d with simscore :=
              ((pyMinPsim (norm_result wordOpt groups) - d.raw_psim : Int) : ℚ) /
                ((pyMaxPsim (norm_result wordOpt groups) -
                  pyMinPsim (norm_result wordOpt groups) : Int) : ℚ) + 1 }) := by
      rw [hstore]
      congr 1
      funext d
      rw [if_pos hdiff]
    have hminmap : pyMinPsim (store_normalized_sim_penalties wordOpt groups) =
        pyMinPsim (norm_result wordOpt groups) := by
      rw [hform]
      exact pyMinPsim_map_eq _ _ (fun _ => rfl)
    have hmaxmap : pyMaxPsim (store_normalized_sim_penalties wordOpt groups) =
        pyMaxPsim (norm_result wordOpt groups) := by
      rw [hform]
      exact pyMaxPsim_map_eq _ _ (fun _ => rfl)
    have hc' := hc
    rw [hform] at hc'
    obtain ⟨d', hd', hdc⟩ := List.mem_map.mp hc'
    refine ⟨?_, ?_, ?_⟩
    · intro hmin
      rw [hminmap] at hmin
      have hraw : d'.raw_psim = pyMinPsim (norm_result wordOpt groups) := by
        rw [← hmin, ← hdc]
      rw [← hdc]
      show ((pyMinPsim (norm_result wordOpt groups) - d'.raw_psim : Int) : ℚ) /
          ((pyMaxPsim (norm_result wordOpt groups) -
            pyMinPsim (norm_result wordOpt groups) : Int) : ℚ) + 1 = 1
      rw [hraw]
      simp
    · intro hall
      exfalso
      apply hdiff
      have hallL : ∀ e ∈ norm_result wordOpt groups,
          e.raw_psim = pyMinPsim (norm_result wordOpt groups) := by
        intro e he
        have hmem : ({ e with simscore :=
            ((pyMinPsim (norm_result wordOpt groups) - e.raw_psim : Int) : ℚ) /
              ((pyMaxPsim (norm_result wordOpt groups) -
                pyMinPsim (norm_result wordOpt groups) : Int) : ℚ) + 1 } :
            Candidate) ∈ store_normalized_sim_penalties wordOpt groups := by
          rw [hform]
          exact List.mem_map_of_mem _ he
        have := hall _ hmem
        rw [hminmap] at this
        exact this
      have hmax := pyMaxPsim_const _ _ hL hallL
      have hmin := pyMinPsim_const _ _ hL hallL
      omega
    · intro _
      rw [hminmap, hmaxmap, ← hdc]

theorem c3_simscore_normalization_witness :
    Candidate.simscore
      { word := ['a'], penalty := 0, lang := "aa", raw_psim := 5, simscore := 1 } =
      1 :=
  ((c3_simscore_normalization false
      [[{ word := ['a'], penalty := 0, lang := "aa", raw_psim := 5 }]]
      (by decide))
    { word := ['a'], penalty := 0, lang := "aa", raw_psim := 5, simscore := 1 }
    (by decide)).1 (by decide)

/-- C4: a pair accepted by `calc_distance` is reported related exactly when
the spec's criterion holds: after stripping the shared outer filler vowels,
the edit-distance ratio is at most one half or the shorter word (of at
least two letters) is a prefix or suffix of the longer, and words that both
contain consonants must share one. -/
theorem c4_relatedness_criterion (a b : List Char) (r : Nat × Bool)
    (h : calc_distance a b = some r) : r.2 = related_spec a b :=
  calc_distance_spec_aux (a.length + b.length) a b r rfl h

theorem c4_relatedness_criterion_witness :
    ((2, false) : Nat × Bool).2 = related_spec ("kubə".toList) ("sabə".toList) ∧
      related_spec ("kubə".toList) ("sabə".toList) = false :=
  ⟨c4_relatedness_criterion ("kubə".toList) ("sabə".toList) (2, false) (by decide),
   by decide⟩

/-- C5: `print_cands` returns exactly the non-skipped candidates of the
stably key-sorted input; the assigned numbers are `1, 2, ...` in order;
the output is ordered by the spec's ordering (descending related-natural-
language count, then descending total score, then ascending exported
word); and a candidate is skipped exactly when it duplicates an existing
dictionary word (without `--allowduplicates`), is shorter than the minimum
length, has distortion score at most 0.6, or fails the constraints. -/
theorem c5_print_cands_order_and_skip
    (existing : List (List Char)) (allowdup : Bool) (min_length : Nat)
    (constraints : Option Constraints) (cand_list : List Candidate) :
    print_cands existing allowdup cand_list min_length constraints =
        (sortCands cand_list).filter
          (fun c => (skip_reason existing allowdup min_length constraints c).isNone) ∧
      (print_cands_loop existing allowdup min_length constraints
          (sortCands cand_list) 1).filterMap Prod.fst =
        List.range' 1
          (print_cands existing allowdup cand_list min_length constraints).length ∧
      (print_cands existing allowdup cand_list min_length constraints).Pairwise
        spec_le ∧
      (∀ c : Candidate,
        (skip_reason existing allowdup min_length constraints c).isSome = true ↔
          spec_skip existing allowdup min_length constraints c) := by
  have h1 : print_cands existing allowdup cand_list min_length constraints =
      (sortCands cand_list).filter
        (fun c => (skip_reason existing allowdup min_length constraints c).isNone) := by
    unfold print_cands
    by_cases hnil : cand_list = []
    · rw [if_pos hnil, hnil]
      rfl
    · rw [if_neg hnil]
      exact print_loop_filter existing allowdup min_length constraints
        (sortCands cand_list) 1
  refine ⟨h1, ?_, ?_,
    skip_reason_isSome_iff existing allowdup min_length constraints⟩
  · rw [print_loop_numbers existing allowdup min_length constraints
      (sortCands cand_list) 1, h1]
    rw [List.countP_eq_length_filter]
  · rw [h1]
    have hp := sortCands_pairwise cand_list
    have hp2 : (sortCands cand_list).Pairwise spec_le :=
      hp.imp (fun hab => (key_lt_false_iff_spec_le _ _).mp hab)
    exact hp2.filter _

/-- C6: `calc_distance` is symmetric — swapping its arguments yields the
same result (including the `none` of the reachable division by zero). -/
theorem c6_calc_distance_symmetric (a b : List Char) :
    calc_distance a b = calc_distance b a :=
  calc_distance_comm_aux (a.length + b.length) a b rfl

/-- C7 (counterexample): "əə" is a non-empty word with at least two
letters, yet `calc_distance("əə", "əə")` does not return `(0, true)` — it
raises `ZeroDivisionError` (embedded as `none`). -/
theorem c7_self_distance_counterexample :
    2 ≤ ("əə".toList).length ∧ "əə".toList ≠ [] ∧
      calc_distance ("əə".toList) ("əə".toList) = none := by
  decide

/-- C7 (amended): for every non-empty word with at least two letters that
does not consist entirely of filler vowels,
`calc_distance(a, a) = (0, true)`. -/
theorem c7_self_distance (a : List Char) (h1 : a ≠ []) (h2 : 2 ≤ a.length)
    (h3 : ∃ c ∈ a, c ≠ 'ə') : calc_distance a a = some (0, true) :=
  calc_distance_self_aux a.length a rfl h1 h3

theorem c7_self_distance_witness :
    calc_distance ("ab".toList) ("ab".toList) = some (0, true) :=
  c7_self_distance ("ab".toList) (by decide) (by decide)
    ⟨'a', by decide, by decide⟩

/-- C8: `mk_candidate` returns `none` exactly when, after stripping a
trailing parenthetical comment, the remaining text is empty or contains no
Latin letter; in particular, punctuation-only input yields `none` rather
than an error (the function is total). -/
theorem c8_mk_candidate_none_iff
    (pre : List Char → String → String → List Char)
    (post : List Char → List Char → String → String → List Char)
    (convdicts : String → Option ConvTable) (auxlangs : List String)
    (word : List Char) (langcode conv_dict_name cls : String)
    (true_original : Option String) :
    mk_candidate pre post convdicts auxlangs word langcode conv_dict_name cls
        true_original = none ↔
      (strip_comment word = [] ∨
        has_latin_letter (strip_comment word) = false) := by
  simp only [mk_candidate]
  by_cases hcond : strip_comment word ≠ [] ∧
      has_latin_letter (strip_comment word) = true
  · rw [if_neg (not_not_intro hcond)]
    have hrhs : ¬(strip_comment word = [] ∨
        has_latin_letter (strip_comment word) = false) := by
      rintro (hx | hx)
      · exact hcond.1 hx
      · rw [hx] at hcond
        exact Bool.false_ne_true hcond.2
    cases hd : convdicts conv_dict_name with
    | none =>
      simp only [hd]
      exact iff_of_false (by simp) hrhs
    | some tbl =>
      simp only [hd]
      exact iff_of_false (by simp) hrhs
  · rw [if_pos hcond]
    refine iff_of_true rfl ?_
    by_cases he : strip_comment word = []
    · exact Or.inl he
    · right
      cases hl : has_latin_letter (strip_comment word)
      · rfl
      · exact absurd ⟨he, hl⟩ hcond

/-- C9: each iteration of the longest-prefix conversion loop consumes at
least one character of the remaining input, and on total match failure the
single leading character is copied verbatim and exactly one character is
consumed — so the loop (defined by recursion on the remaining length)
terminates on every input. -/
theorem c9_conversion_progress (tbl : ConvTable) (rest : List Char)
    (h : rest ≠ []) :
    (convert_step tbl rest).2.2.length < rest.length ∧
      (find_longest_conv tbl.lookup rest (min tbl.maxkeylen rest.length) = none →
        (convert_step tbl rest).1 = [rest.head h] ∧
          (convert_step tbl rest).2.2 = rest.tail) := by
  have hlen : rest.length ≠ 0 := fun h0 => h (List.length_eq_zero.mp h0)
  unfold convert_step
  cases hf : find_longest_conv tbl.lookup rest (min tbl.maxkeylen rest.length) with
  | some cv =>
    obtain ⟨conv, k⟩ := cv
    constructor
    · show (rest.drop k).length < rest.length
      have hk := find_longest_conv_pos tbl.lookup rest _ conv k hf
      rw [List.length_drop]
      omega
    · intro hcontra
      exact absurd hcontra (by simp)
  | none =>
    constructor
    · show (rest.drop 1).length < rest.length
      rw [List.length_drop]
      omega
    · intro _
      cases rest with
      | nil => exact absurd rfl h
      | cons c cs => exact ⟨rfl, rfl⟩

theorem c9_conversion_progress_witness :
    (convert_step { lookup := fun _ => none, maxkeylen := 3 } ['a']).2.2.length <
      (['a'] : List Char).length :=
  (c9_conversion_progress { lookup := fun _ => none, maxkeylen := 3 } ['a']
    (by decide)).1

/-- C10 (counterexample): not every pair of words consisting entirely of
filler vowels makes `calc_distance` raise — for "ə" and "əə" (both all-
filler) it returns `(1, false)` normally. -/
theorem c10_not_every_filler_pair_crashes :
    (∀ ch ∈ "ə".toList, ch = 'ə') ∧ (∀ ch ∈ "əə".toList, ch = 'ə') ∧
      calc_distance ("ə".toList) ("əə".toList) = some (1, false) := by
  decide

/-- C10 (amended): for every pair of equal-length words consisting entirely
of filler vowels (including two empty strings and ("ə","ə")), the shared
filler stripping recurses down to two empty strings and the division by
`max(len, len) = 0` raises `ZeroDivisionError` (embedded as `none`). -/
theorem c10_equal_filler_words_crash (n : Nat) :
    calc_distance (List.replicate n 'ə') (List.replicate n 'ə') = none :=
  calc_distance_filler_aux n

end Komusan














